import Mathlib

/-!
Verification of the SegLink geometric/graph core (`tf_extended/seglink.py`).

The development shallowly embeds the source file's functions:
* pyramid configuration (`config.feat_layers` / `config.feat_shapes`) is a
  `List (ℕ × ℕ)` of `(height, width)` grid shapes, in layer order;
* match labels are `ℤ` (`-1` = unmatched, `≥ 0` = polygon index);
* scores are `ℚ` (exact stand-in for floating point, only compared);
* geometry is over `ℝ`.

External primitives (OpenCV, `util.img`) are modelled by parameters or by
their documented formulas; everything else is translated from the source.
-/

namespace seglink

/-! ### Pyramid configuration and per-layer label grids -/

/-- A pyramid configuration: the list of `(height, width)` feature-map grid
shapes, in the order of `config.feat_layers`. -/
def Config := List (ℕ × ℕ)

/-- Flat-index offset of layer `l` in the anchor/label flattening used by
`reshape_labels_by_layer`: the sum of `h*w` over the preceding layers. -/
def layer_offset (cfg : List (ℕ × ℕ)) (l : ℕ) : ℕ :=
  ((cfg.take l).map (fun p => p.1 * p.2)).sum

/-- Total number of anchors of a configuration. -/
def total_anchors (cfg : List (ℕ × ℕ)) : ℕ :=
  (cfg.map (fun p => p.1 * p.2)).sum

/-- Row-major grid access of layer `l` into the flat label vector, embedding
`reshape_labels_by_layer(labels)[layer_name][y, x]` (numpy reshape is
row-major, so cell `(y, x)` of layer `l` with width `w` sits at flat index
`layer_offset + y*w + x`).  Arguments are `y` then `x`, as in the source's
`layer_match_result[y, x]`. -/
def layer_label (cfg : List (ℕ × ℕ)) (labels : List ℤ) (l : ℕ) (y x : ℤ) : ℤ :=
  labels.getD (layer_offset cfg l + y.toNat * (cfg.getD l (0, 0)).2 + x.toNat) 0

/-! ### Neighbourhoods (`get_inter_layer_neighbours`, `get_cross_layer_neighbours`,
`is_valid_cord`) -/

/-- The 8 same-layer neighbour coordinates of cell `(x, y)`. -/
def get_inter_layer_neighbours (x y : ℤ) : List (ℤ × ℤ) :=
  [(x - 1, y - 1), (x, y - 1), (x + 1, y - 1),
   (x - 1, y),                 (x + 1, y),
   (x - 1, y + 1), (x, y + 1), (x + 1, y + 1)]

/-- The 4 cross-layer neighbour coordinates of cell `(x, y)` in the previous
(finer) layer. -/
def get_cross_layer_neighbours (x y : ℤ) : List (ℤ × ℤ) :=
  [(2 * x, 2 * y), (2 * x + 1, 2 * y), (2 * x, 2 * y + 1), (2 * x + 1, 2 * y + 1)]

/-- Bounds check of the source: `x >= 0 and x < w and y >= 0 and y < h`. -/
def is_valid_cord (x y : ℤ) (w h : ℕ) : Prop :=
  0 ≤ x ∧ x < (w : ℤ) ∧ 0 ≤ y ∧ y < (h : ℤ)

instance (x y : ℤ) (w h : ℕ) : Decidable (is_valid_cord x y w h) := by
  unfold is_valid_cord; infer_instance

/-! ### Link ground truth (`cal_link_gt`)

In the source, `inter_layer_link_gt[y, x, nidx]` is written (at most once, in
the loop iteration of cell `(x, y)`) to `1` exactly when the cell's label is
non-negative, the neighbour coordinate is valid, and the neighbour's label
equals the cell's label; it stays `0` otherwise.  `inter_link_slot` is that
per-slot value as a function; `cal_link_gt` flattens the slots in the numpy
row-major order `(y, x, nidx)`, all inter-layer grids first, then the
cross-layer grids of layers `1, 2, …`. -/

/-- Value of inter-layer link slot `(y, x, nidx)` on a layer with grid access
`get` (row first) and shape `(h, w)`. -/
def inter_link_slot (get : ℤ → ℤ → ℤ) (w h : ℕ) (x y : ℤ) (nidx : ℕ) : ℤ :=
  if 0 ≤ get y x then
    let nxy := (get_inter_layer_neighbours x y).getD nidx (0, 0)
    if is_valid_cord nxy.1 nxy.2 w h ∧ get nxy.2 nxy.1 = get y x then 1 else 0
  else 0

/-- Value of cross-layer link slot `(y, x, nidx)`: `get` is the current
layer's grid access, `getPrev` the previous layer's, of shape `(ph, pw)`. -/
def cross_link_slot (get getPrev : ℤ → ℤ → ℤ) (pw ph : ℕ) (x y : ℤ) (nidx : ℕ) : ℤ :=
  if 0 ≤ get y x then
    let nxy := (get_cross_layer_neighbours x y).getD nidx (0, 0)
    if is_valid_cord nxy.1 nxy.2 pw ph ∧ getPrev nxy.2 nxy.1 = get y x then 1 else 0
  else 0

/-- Flattened inter-layer link grid of layer `l` (shape `(h, w, 8)`,
row-major). -/
def inter_layer_link_gt (cfg : List (ℕ × ℕ)) (labels : List ℤ) (l : ℕ) : List ℤ :=
  (List.range (cfg.getD l (0, 0)).1).flatMap (fun y =>
    (List.range (cfg.getD l (0, 0)).2).flatMap (fun x =>
      (List.range 8).map (fun nidx =>
        inter_link_slot (layer_label cfg labels l)
          (cfg.getD l (0, 0)).2 (cfg.getD l (0, 0)).1 (x : ℤ) (y : ℤ) nidx)))

/-- Flattened cross-layer link grid of layer `l ≥ 1` (shape `(h, w, 4)`,
row-major), referencing the previous layer `l - 1`. -/
def cross_layer_link_gt (cfg : List (ℕ × ℕ)) (labels : List ℤ) (l : ℕ) : List ℤ :=
  (List.range (cfg.getD l (0, 0)).1).flatMap (fun y =>
    (List.range (cfg.getD l (0, 0)).2).flatMap (fun x =>
      (List.range 4).map (fun nidx =>
        cross_link_slot (layer_label cfg labels l) (layer_label cfg labels (l - 1))
          (cfg.getD (l - 1) (0, 0)).2 (cfg.getD (l - 1) (0, 0)).1 (x : ℤ) (y : ℤ) nidx)))

/-- The flat link ground truth of `cal_link_gt`: all inter-layer grids in
layer order, then the cross-layer grids of layers `1 … L-1`.  The source ends
with `np.hstack` over the list of per-layer arrays, and `np.hstack` of an
empty list raises: with zero layers it raises at the inter-layer
concatenation, with exactly one layer at the cross-layer concatenation
(`cross_layer_link_gts == []`).  So a value is returned only when the
configuration has at least two layers; the raise is embedded as `none`. -/
def cal_link_gt (cfg : List (ℕ × ℕ)) (labels : List ℤ) : Option (List ℤ) :=
  if 1 < cfg.length then
    some (((List.range cfg.length).flatMap (fun l => inter_layer_link_gt cfg labels l)) ++
      ((List.range (cfg.length - 1)).flatMap (fun i => cross_layer_link_gt cfg labels (i + 1))))
  else none

/-! ### Spec-side restatement of the link rule

Modelled from the spec's words ("a link's ground-truth value is 1 iff both
endpoint anchors have the same non-negative MatchLabel", every other slot 0),
to be compared with the source definition above. -/

/-- Spec version of an inter-layer slot: 1 iff the neighbour coordinate is
valid and both endpoints carry the same non-negative label. -/
def inter_link_slot_spec (get : ℤ → ℤ → ℤ) (w h : ℕ) (x y : ℤ) (nidx : ℕ) : ℤ :=
  let nxy := (get_inter_layer_neighbours x y).getD nidx (0, 0)
  if is_valid_cord nxy.1 nxy.2 w h ∧ 0 ≤ get y x ∧ 0 ≤ get nxy.2 nxy.1 ∧
      get y x = get nxy.2 nxy.1 then 1 else 0

/-- Spec version of a cross-layer slot. -/
def cross_link_slot_spec (get getPrev : ℤ → ℤ → ℤ) (pw ph : ℕ) (x y : ℤ) (nidx : ℕ) : ℤ :=
  let nxy := (get_cross_layer_neighbours x y).getD nidx (0, 0)
  if is_valid_cord nxy.1 nxy.2 pw ph ∧ 0 ≤ get y x ∧ 0 ≤ getPrev nxy.2 nxy.1 ∧
      get y x = getPrev nxy.2 nxy.1 then 1 else 0

/-- Spec version of the flattened inter-layer grid. -/
def inter_layer_link_gt_spec (cfg : List (ℕ × ℕ)) (labels : List ℤ) (l : ℕ) : List ℤ :=
  (List.range (cfg.getD l (0, 0)).1).flatMap (fun y =>
    (List.range (cfg.getD l (0, 0)).2).flatMap (fun x =>
      (List.range 8).map (fun nidx =>
        inter_link_slot_spec (layer_label cfg labels l)
          (cfg.getD l (0, 0)).2 (cfg.getD l (0, 0)).1 (x : ℤ) (y : ℤ) nidx)))

/-- Spec version of the flattened cross-layer grid. -/
def cross_layer_link_gt_spec (cfg : List (ℕ × ℕ)) (labels : List ℤ) (l : ℕ) : List ℤ :=
  (List.range (cfg.getD l (0, 0)).1).flatMap (fun y =>
    (List.range (cfg.getD l (0, 0)).2).flatMap (fun x =>
      (List.range 4).map (fun nidx =>
        cross_link_slot_spec (layer_label cfg labels l) (layer_label cfg labels (l - 1))
          (cfg.getD (l - 1) (0, 0)).2 (cfg.getD (l - 1) (0, 0)).1 (x : ℤ) (y : ℤ) nidx)))

/-- Spec version of the whole flat link ground truth (same concatenation
structure and the same defined domain: at least two layers). -/
def cal_link_gt_spec (cfg : List (ℕ × ℕ)) (labels : List ℤ) : Option (List ℤ) :=
  if 1 < cfg.length then
    some (((List.range cfg.length).flatMap (fun l => inter_layer_link_gt_spec cfg labels l)) ++
      ((List.range (cfg.length - 1)).flatMap (fun i => cross_layer_link_gt_spec cfg labels (i + 1))))
  else none

/-! ### Slot equalities -/

theorem inter_link_slot_eq_spec (get : ℤ → ℤ → ℤ) (w h : ℕ) (x y : ℤ) (nidx : ℕ) :
    inter_link_slot get w h x y nidx = inter_link_slot_spec get w h x y nidx := by
  unfold inter_link_slot inter_link_slot_spec
  by_cases hc : 0 ≤ get y x
  · rw [if_pos hc]
    by_cases hv :
        is_valid_cord ((get_inter_layer_neighbours x y).getD nidx (0, 0)).1
          ((get_inter_layer_neighbours x y).getD nidx (0, 0)).2 w h
    · by_cases he :
          get ((get_inter_layer_neighbours x y).getD nidx (0, 0)).2
            ((get_inter_layer_neighbours x y).getD nidx (0, 0)).1 = get y x
      · rw [if_pos ⟨hv, he⟩, if_pos ⟨hv, hc, he ▸ hc, he.symm⟩]
      · rw [if_neg (by tauto), if_neg (by intro hk; exact he hk.2.2.2.symm)]
    · rw [if_neg (by tauto), if_neg (by tauto)]
  · simp only [hc, if_false]
    rw [if_neg (by tauto)]

theorem cross_link_slot_eq_spec (get getPrev : ℤ → ℤ → ℤ) (pw ph : ℕ) (x y : ℤ) (nidx : ℕ) :
    cross_link_slot get getPrev pw ph x y nidx = cross_link_slot_spec get getPrev pw ph x y nidx := by
  unfold cross_link_slot cross_link_slot_spec
  by_cases hc : 0 ≤ get y x
  · rw [if_pos hc]
    by_cases hv :
        is_valid_cord ((get_cross_layer_neighbours x y).getD nidx (0, 0)).1
          ((get_cross_layer_neighbours x y).getD nidx (0, 0)).2 pw ph
    · by_cases he :
          getPrev ((get_cross_layer_neighbours x y).getD nidx (0, 0)).2
            ((get_cross_layer_neighbours x y).getD nidx (0, 0)).1 = get y x
      · rw [if_pos ⟨hv, he⟩, if_pos ⟨hv, hc, he ▸ hc, he.symm⟩]
      · rw [if_neg (by tauto), if_neg (by intro hk; exact he hk.2.2.2.symm)]
    · rw [if_neg (by tauto), if_neg (by tauto)]
  · simp only [hc, if_false]
    rw [if_neg (by tauto)]

/-- C3: the link ground truth built from labels equals the spec's link rule:
a guarded link slot is 1 iff both endpoint anchors carry the same
non-negative match label, and every other slot is 0. -/
theorem cal_link_gt_eq_spec (cfg : List (ℕ × ℕ)) (labels : List ℤ) :
    cal_link_gt cfg labels = cal_link_gt_spec cfg labels := by
  have h1 : ∀ l, inter_layer_link_gt cfg labels l = inter_layer_link_gt_spec cfg labels l := by
    intro l
    unfold inter_layer_link_gt inter_layer_link_gt_spec
    simp only [inter_link_slot_eq_spec]
  have h2 : ∀ l, cross_layer_link_gt cfg labels l = cross_layer_link_gt_spec cfg labels l := by
    intro l
    unfold cross_layer_link_gt cross_layer_link_gt_spec
    simp only [cross_link_slot_eq_spec]
  unfold cal_link_gt cal_link_gt_spec
  split_ifs
  · simp only [h1, h2]
  · rfl

/-! ### Bounds safety of the link builder (claim C8) -/

/-- Helper: a slot only reads the label grid at coordinates passing
`is_valid_cord`; getters agreeing on all valid coordinates give equal
inter-layer slots. -/
theorem inter_link_slot_congr (w h : ℕ) (x y : ℤ) (nidx : ℕ) (get get' : ℤ → ℤ → ℤ)
    (hxy : is_valid_cord x y w h)
    (hag : ∀ a b : ℤ, is_valid_cord a b w h → get b a = get' b a) :
    inter_link_slot get w h x y nidx = inter_link_slot get' w h x y nidx := by
  unfold inter_link_slot
  simp only [hag x y hxy]
  by_cases hv :
      is_valid_cord ((get_inter_layer_neighbours x y).getD nidx (0, 0)).1
        ((get_inter_layer_neighbours x y).getD nidx (0, 0)).2 w h
  · simp only [hag _ _ hv]
  · by_cases hc : 0 ≤ get' y x
    · rw [if_pos hc, if_pos hc, if_neg (by tauto), if_neg (by tauto)]
    · rw [if_neg hc, if_neg hc]

/-- Helper: same frame property for cross-layer slots: the current layer is
read only at the cell itself, the previous layer only at valid coordinates. -/
theorem cross_link_slot_congr (pw ph : ℕ) (x y : ℤ) (nidx : ℕ)
    (get get' getPrev getPrev' : ℤ → ℤ → ℤ)
    (hc0 : get y x = get' y x)
    (hag : ∀ a b : ℤ, is_valid_cord a b pw ph → getPrev b a = getPrev' b a) :
    cross_link_slot get getPrev pw ph x y nidx =
      cross_link_slot get' getPrev' pw ph x y nidx := by
  unfold cross_link_slot
  simp only [hc0]
  by_cases hv :
      is_valid_cord ((get_cross_layer_neighbours x y).getD nidx (0, 0)).1
        ((get_cross_layer_neighbours x y).getD nidx (0, 0)).2 pw ph
  · simp only [hag _ _ hv]
  · by_cases hc : 0 ≤ get' y x
    · rw [if_pos hc, if_pos hc, if_neg (by tauto), if_neg (by tauto)]
    · rw [if_neg hc, if_neg hc]

/-- C8 counterexample: on the single 1×1-layer configuration the source
never returns — the cross-layer array list is empty and `np.hstack([])`
raises — so `cal_link_gt` does not return the claimed all-zero vector there:
it yields `none`, not `some` of eight zeros. -/
theorem cal_link_gt_single_layer_raises :
    cal_link_gt [(1, 1)] [5] = none ∧
    cal_link_gt [(1, 1)] [5] ≠ some (List.replicate 8 0) := by
  have hnone : cal_link_gt [(1, 1)] [5] = none := by
    unfold cal_link_gt
    rw [if_neg (by decide)]
  exact ⟨hnone, by rw [hnone]; simp⟩

/-- C8 (amended): label-grid reads in the link builder are guarded to stay
inside `[0,h)×[0,w)` of the accessed layer — slots depend on the label grids
only through in-bounds coordinates — and for a single 1×1 layer every
neighbour is out of bounds, so that layer's inter-layer link block is all
zeros whatever the cell's label; `cal_link_gt` itself, however, aborts on any
single-layer configuration (the empty cross-layer `np.hstack`) instead of
returning the zeros. -/
theorem cal_link_gt_access_guarded :
    (∀ (w h : ℕ) (x y : ℤ) (nidx : ℕ) (get get' : ℤ → ℤ → ℤ),
        is_valid_cord x y w h →
        (∀ a b : ℤ, is_valid_cord a b w h → get b a = get' b a) →
        inter_link_slot get w h x y nidx = inter_link_slot get' w h x y nidx) ∧
    (∀ (pw ph : ℕ) (x y : ℤ) (nidx : ℕ) (get get' getPrev getPrev' : ℤ → ℤ → ℤ),
        get y x = get' y x →
        (∀ a b : ℤ, is_valid_cord a b pw ph → getPrev b a = getPrev' b a) →
        cross_link_slot get getPrev pw ph x y nidx =
          cross_link_slot get' getPrev' pw ph x y nidx) ∧
    (∀ v : ℤ, inter_layer_link_gt [(1, 1)] [v] 0 = List.replicate 8 0) ∧
    (∀ v : ℤ, cal_link_gt [(1, 1)] [v] = none) := by
  refine ⟨inter_link_slot_congr, cross_link_slot_congr, ?_, ?_⟩
  · intro v
    have hslot : ∀ nidx : ℕ, nidx < 8 →
        inter_link_slot (layer_label [(1, 1)] [v] 0) 1 1 0 0 nidx = 0 := by
      intro nidx h8
      unfold inter_link_slot
      by_cases hc : 0 ≤ layer_label [(1, 1)] [v] 0 0 0
      · rw [if_pos hc, if_neg ?_]
        intro hk
        have hv := hk.1
        interval_cases nidx <;> exact absurd hv (by decide)
      · rw [if_neg hc]
    have hrw : inter_layer_link_gt [(1, 1)] [v] 0 =
        ([0, 1, 2, 3, 4, 5, 6, 7] : List ℕ).map
          (fun nidx => inter_link_slot (layer_label [(1, 1)] [v] 0) 1 1 0 0 nidx) := by
      rfl
    rw [hrw]
    simp only [List.map_cons, List.map_nil,
      hslot 0 (by omega), hslot 1 (by omega), hslot 2 (by omega), hslot 3 (by omega),
      hslot 4 (by omega), hslot 5 (by omega), hslot 6 (by omega), hslot 7 (by omega)]
    rfl
  · intro v
    unfold cal_link_gt
    rw [if_neg (by decide)]

/-- Witness for C8 at concrete grids: two getters that agree only on the one
valid cell of a 1×1 grid give the same slot, the 1×1 inter-layer block is all
zeros at label 5, and `cal_link_gt` aborts there. -/
theorem cal_link_gt_access_guarded_witness :
    inter_link_slot (fun y x => 3 + y + x) 1 1 0 0 0 =
        inter_link_slot (fun y x => 3 - y - x) 1 1 0 0 0 ∧
    cross_link_slot (fun y x => 3 + y + x) (fun y x => 5 + y * x) 1 1 0 0 2 =
        cross_link_slot (fun y x => 3 + y + x) (fun y x => 5 + x * y) 1 1 0 0 2 ∧
    inter_layer_link_gt [(1, 1)] [5] 0 = List.replicate 8 0 ∧
    cal_link_gt [(1, 1)] [5] = none := by
  refine ⟨cal_link_gt_access_guarded.1 1 1 0 0 0 _ _ (by decide) ?_,
    cal_link_gt_access_guarded.2.1 1 1 0 0 2 _ _ _ _ rfl ?_,
    cal_link_gt_access_guarded.2.2.1 5,
    cal_link_gt_access_guarded.2.2.2 5⟩
  · intro a b hv
    obtain ⟨h1, h2, h3, h4⟩ := hv
    have ha : a = 0 := by omega
    have hb : b = 0 := by omega
    subst ha hb; simp
  · intro a b hv
    obtain ⟨h1, h2, h3, h4⟩ := hv
    have ha : a = 0 := by omega
    have hb : b = 0 := by omega
    subst ha hb; simp

/-! ### Segment grouping (`group_segs`)

The Python union-find state is a dict `mask` from the indices of anchors
passing the segment-confidence threshold to a parent pointer (`-1` = root).
The key set never changes (roots are always existing keys), so it is embedded
as a fixed `dom` list plus a parent function; the parent-chasing `while` loop
of `get_root` is embedded with explicit fuel (`union`/`to_list` are called
with fuel `len(seg_scores)`, which bounds every root-path in the acyclic
parent forest the source maintains). -/

/-- Anchor indices passing the segment-confidence threshold, ascending
(`np.where(seg_scores >= seg_confidence_threshold)[0]`). -/
def valid_segs (τs : ℚ) (seg_scores : List ℚ) : List ℕ :=
  (List.range seg_scores.length).filter (fun i => τs ≤ seg_scores.getD i 0)

/-- The union-find state: `mask`'s key list and parent map. -/
structure Mask where
  dom : List ℕ
  parent : ℕ → ℤ

/-- Root of `idx`: follow parent pointers while they are not `-1`. -/
def get_root (parent : ℕ → ℤ) : ℕ → ℕ → ℕ
  | idx, 0 => idx
  | idx, fuel + 1 => if parent idx = -1 then idx else get_root parent (parent idx).toNat fuel

/-- Union: point `root1` at `root2` when the roots differ. -/
def union (m : Mask) (fuel idx1 idx2 : ℕ) : Mask :=
  let root1 := get_root m.parent idx1 fuel
  let root2 := get_root m.parent idx2 fuel
  if root1 ≠ root2 then ⟨m.dom, Function.update m.parent root1 (root2 : ℤ)⟩ else m

/-- Grouping of the keys by root (`to_list` in the source: one list per
distinct root, holding every key resolving to that root). -/
def to_list (m : Mask) (fuel : ℕ) : List (List ℕ) :=
  ((m.dom.map (fun idx => get_root m.parent idx fuel)).dedup).map
    (fun r => m.dom.filter (fun idx => get_root m.parent idx fuel = r))

/-- Flat index of cell `(y, x)` of layer `l` in the anchor flattening
(`reshape_labels_by_layer(np.arange(len(seg_scores)))[layer][y, x]`). -/
def seg_index (cfg : List (ℕ × ℕ)) (l : ℕ) (y x : ℤ) : ℕ :=
  layer_offset cfg l + y.toNat * (cfg.getD l (0, 0)).2 + x.toNat

/-- Offset of layer `l`'s inter-layer block in the flat link vector. -/
def inter_link_offset (cfg : List (ℕ × ℕ)) (l : ℕ) : ℕ :=
  ((cfg.take l).map (fun p => p.1 * p.2 * 8)).sum

/-- Total length of all inter-layer blocks. -/
def total_inter_links (cfg : List (ℕ × ℕ)) : ℕ :=
  (cfg.map (fun p => p.1 * p.2 * 8)).sum

/-- Offset of layer `l ≥ 1`'s cross-layer block in the flat link vector
(after every inter-layer block, then the cross blocks of layers `1 … l-1`). -/
def cross_link_offset (cfg : List (ℕ × ℕ)) (l : ℕ) : ℕ :=
  total_inter_links cfg + (((cfg.drop 1).take (l - 1)).map (fun p => p.1 * p.2 * 4)).sum

/-- Access `reshape_link_gt_by_layer(link_scores)` inter-layer entry
`[layer][y, x, nidx]`. -/
def layer_inter_link_score (cfg : List (ℕ × ℕ)) (link_scores : List ℚ) (l : ℕ)
    (y x : ℤ) (nidx : ℕ) : ℚ :=
  link_scores.getD
    (inter_link_offset cfg l + (y.toNat * (cfg.getD l (0, 0)).2 + x.toNat) * 8 + nidx) 0

/-- Access `reshape_link_gt_by_layer(link_scores)` cross-layer entry
`[layer][y, x, nidx]`. -/
def layer_cross_link_score (cfg : List (ℕ × ℕ)) (link_scores : List ℚ) (l : ℕ)
    (y x : ℤ) (nidx : ℕ) : ℚ :=
  link_scores.getD
    (cross_link_offset cfg l + (y.toNat * (cfg.getD l (0, 0)).2 + x.toNat) * 4 + nidx) 0

/-- One inter-layer neighbour trial of cell `(x, y)` on layer `l`: union the
cell with the neighbour when the coordinate is valid and both the neighbour's
segment score and the link score pass their thresholds. -/
def inter_neighbour_step (cfg : List (ℕ × ℕ)) (τs τl : ℚ) (ss ls : List ℚ) (l x y : ℕ)
    (m : Mask) (nidx : ℕ) : Mask :=
  let nxy := (get_inter_layer_neighbours (x : ℤ) (y : ℤ)).getD nidx (0, 0)
  if is_valid_cord nxy.1 nxy.2 (cfg.getD l (0, 0)).2 (cfg.getD l (0, 0)).1 ∧
      τs ≤ ss.getD (seg_index cfg l nxy.2 nxy.1) 0 ∧
      τl ≤ layer_inter_link_score cfg ls l (y : ℤ) (x : ℤ) nidx then
    union m ss.length (seg_index cfg l (y : ℤ) (x : ℤ)) (seg_index cfg l nxy.2 nxy.1)
  else m

/-- One cross-layer neighbour trial of cell `(x, y)` on layer `l ≥ 1` against
the previous layer `l - 1`. -/
def cross_neighbour_step (cfg : List (ℕ × ℕ)) (τs τl : ℚ) (ss ls : List ℚ) (l x y : ℕ)
    (m : Mask) (nidx : ℕ) : Mask :=
  let nxy := (get_cross_layer_neighbours (x : ℤ) (y : ℤ)).getD nidx (0, 0)
  if is_valid_cord nxy.1 nxy.2 (cfg.getD (l - 1) (0, 0)).2 (cfg.getD (l - 1) (0, 0)).1 ∧
      τs ≤ ss.getD (seg_index cfg (l - 1) nxy.2 nxy.1) 0 ∧
      τl ≤ layer_cross_link_score cfg ls l (y : ℤ) (x : ℤ) nidx then
    union m ss.length (seg_index cfg l (y : ℤ) (x : ℤ)) (seg_index cfg (l - 1) nxy.2 nxy.1)
  else m

/-- Loop body for one cell `(x, y)`: skip cells below the segment threshold,
otherwise try the 8 inter-layer neighbours, then (on layers after the first)
the 4 cross-layer neighbours. -/
def cell_step (cfg : List (ℕ × ℕ)) (τs τl : ℚ) (ss ls : List ℚ) (l x y : ℕ)
    (m : Mask) : Mask :=
  if τs ≤ ss.getD (seg_index cfg l (y : ℤ) (x : ℤ)) 0 then
    let m1 := (List.range 8).foldl (inter_neighbour_step cfg τs τl ss ls l x y) m
    if 0 < l then (List.range 4).foldl (cross_neighbour_step cfg τs τl ss ls l x y) m1
    else m1
  else m

/-- Loop body for one layer: all cells, rows outer. -/
def layer_step (cfg : List (ℕ × ℕ)) (τs τl : ℚ) (ss ls : List ℚ)
    (m : Mask) (l : ℕ) : Mask :=
  (List.range (cfg.getD l (0, 0)).1).foldl (fun m2 y =>
    (List.range (cfg.getD l (0, 0)).2).foldl (fun m3 x =>
      cell_step cfg τs τl ss ls l x y m3) m2) m

/-- Embeds `group_segs(seg_scores, link_scores)`: singletons for every anchor above
the segment threshold, unions along qualifying links, groups by root. -/
def group_segs (cfg : List (ℕ × ℕ)) (τs τl : ℚ) (ss ls : List ℚ) : List (List ℕ) :=
  let m0 : Mask := ⟨valid_segs τs ss, fun _ => -1⟩
  let m := (List.range cfg.length).foldl (layer_step cfg τs τl ss ls) m0
  to_list m ss.length

/-! ### The grouping is a partition of the above-threshold anchors -/

theorem union_dom (m : Mask) (fuel idx1 idx2 : ℕ) : (union m fuel idx1 idx2).dom = m.dom := by
  unfold union
  dsimp only
  split <;> rfl

theorem foldl_dom {α : Type} (f : Mask → α → Mask) (hf : ∀ m a, (f m a).dom = m.dom) :
    ∀ (l : List α) (m : Mask), (l.foldl f m).dom = m.dom := by
  intro l
  induction l with
  | nil => intro m; rfl
  | cons a t ih => intro m; rw [List.foldl_cons, ih, hf]

theorem inter_neighbour_step_dom (cfg : List (ℕ × ℕ)) (τs τl : ℚ) (ss ls : List ℚ)
    (l x y : ℕ) (m : Mask) (nidx : ℕ) :
    (inter_neighbour_step cfg τs τl ss ls l x y m nidx).dom = m.dom := by
  unfold inter_neighbour_step
  dsimp only
  split
  · exact union_dom _ _ _ _
  · rfl

theorem cross_neighbour_step_dom (cfg : List (ℕ × ℕ)) (τs τl : ℚ) (ss ls : List ℚ)
    (l x y : ℕ) (m : Mask) (nidx : ℕ) :
    (cross_neighbour_step cfg τs τl ss ls l x y m nidx).dom = m.dom := by
  unfold cross_neighbour_step
  dsimp only
  split
  · exact union_dom _ _ _ _
  · rfl

theorem cell_step_dom (cfg : List (ℕ × ℕ)) (τs τl : ℚ) (ss ls : List ℚ)
    (l x y : ℕ) (m : Mask) : (cell_step cfg τs τl ss ls l x y m).dom = m.dom := by
  unfold cell_step
  split
  · split
    · rw [foldl_dom _ (cross_neighbour_step_dom cfg τs τl ss ls l x y),
        foldl_dom _ (inter_neighbour_step_dom cfg τs τl ss ls l x y)]
    · rw [foldl_dom _ (inter_neighbour_step_dom cfg τs τl ss ls l x y)]
  · rfl

theorem layer_step_dom (cfg : List (ℕ × ℕ)) (τs τl : ℚ) (ss ls : List ℚ)
    (m : Mask) (l : ℕ) : (layer_step cfg τs τl ss ls m l).dom = m.dom := by
  unfold layer_step
  refine foldl_dom _ (fun m2 y => ?_) _ _
  exact foldl_dom _ (fun m3 x => cell_step_dom cfg τs τl ss ls l x y m3) _ _

theorem mem_to_list_flatten (m : Mask) (fuel : ℕ) (i : ℕ) :
    i ∈ (to_list m fuel).flatten ↔ i ∈ m.dom := by
  unfold to_list
  constructor
  · intro hi
    obtain ⟨g, hg, hig⟩ := List.mem_flatten.mp hi
    obtain ⟨r, _, rfl⟩ := List.mem_map.mp hg
    exact (List.mem_filter.mp hig).1
  · intro hi
    refine List.mem_flatten.mpr ⟨m.dom.filter
      (fun idx => get_root m.parent idx fuel = get_root m.parent i fuel), ?_, ?_⟩
    · exact List.mem_map.mpr ⟨get_root m.parent i fuel,
        List.mem_dedup.mpr (List.mem_map.mpr ⟨i, hi, rfl⟩), rfl⟩
    · exact List.mem_filter.mpr ⟨hi, by simp⟩

theorem to_list_flatten_nodup (m : Mask) (fuel : ℕ) (hd : m.dom.Nodup) :
    (to_list m fuel).flatten.Nodup := by
  unfold to_list
  rw [List.nodup_flatten]
  constructor
  · intro g hg
    obtain ⟨r, _, rfl⟩ := List.mem_map.mp hg
    exact hd.filter _
  · refine List.Pairwise.map _ ?_ ((m.dom.map (fun idx => get_root m.parent idx fuel)).nodup_dedup)
    intro r1 r2 hne
    intro i hi1 hi2
    have h1 := (List.mem_filter.mp hi1).2
    have h2 := (List.mem_filter.mp hi2).2
    simp only [decide_eq_true_eq] at h1 h2
    exact hne (h1 ▸ h2 ▸ rfl)

theorem nil_not_mem_to_list (m : Mask) (fuel : ℕ) : [] ∉ to_list m fuel := by
  unfold to_list
  intro hmem
  obtain ⟨r, hr, hfil⟩ := List.mem_map.mp hmem
  obtain ⟨i, hi, hroot⟩ := List.mem_map.mp (List.mem_dedup.mp hr)
  have : i ∈ m.dom.filter (fun idx => get_root m.parent idx fuel = r) :=
    List.mem_filter.mpr ⟨hi, by simp [hroot]⟩
  rw [hfil] at this
  exact List.not_mem_nil i this

theorem mem_valid_segs (τs : ℚ) (ss : List ℚ) (i : ℕ) :
    i ∈ valid_segs τs ss ↔ i < ss.length ∧ τs ≤ ss.getD i 0 := by
  unfold valid_segs
  rw [List.mem_filter]
  simp [List.mem_range]

/-! ### Anchors with no qualifying link stay singletons

`has_qualifying_link` is the exact condition under which some loop iteration
of `group_segs` executes `union` with the anchor as an endpoint; an
above-threshold anchor for which it fails is never touched by any union, so
its set stays the singleton `{a}`. -/

/-- Condition under which the inter-layer loop body reaches its `union` call
for layer `l`, cell `(x, y)`, neighbour `nidx`: the cell passes the segment
threshold (checked by the enclosing cell branch), the neighbour coordinate is
valid, and the neighbour's segment score and the link score pass their
thresholds. -/
def inter_union_fires (cfg : List (ℕ × ℕ)) (τs τl : ℚ) (ss ls : List ℚ)
    (l x y nidx : ℕ) : Prop :=
  τs ≤ ss.getD (seg_index cfg l (y : ℤ) (x : ℤ)) 0 ∧
  is_valid_cord ((get_inter_layer_neighbours (x : ℤ) (y : ℤ)).getD nidx (0, 0)).1
    ((get_inter_layer_neighbours (x : ℤ) (y : ℤ)).getD nidx (0, 0)).2
    (cfg.getD l (0, 0)).2 (cfg.getD l (0, 0)).1 ∧
  τs ≤ ss.getD (seg_index cfg l
    ((get_inter_layer_neighbours (x : ℤ) (y : ℤ)).getD nidx (0, 0)).2
    ((get_inter_layer_neighbours (x : ℤ) (y : ℤ)).getD nidx (0, 0)).1) 0 ∧
  τl ≤ layer_inter_link_score cfg ls l (y : ℤ) (x : ℤ) nidx

/-- Likewise for the cross-layer loop body (run on layers `l ≥ 1`). -/
def cross_union_fires (cfg : List (ℕ × ℕ)) (τs τl : ℚ) (ss ls : List ℚ)
    (l x y nidx : ℕ) : Prop :=
  τs ≤ ss.getD (seg_index cfg l (y : ℤ) (x : ℤ)) 0 ∧
  is_valid_cord ((get_cross_layer_neighbours (x : ℤ) (y : ℤ)).getD nidx (0, 0)).1
    ((get_cross_layer_neighbours (x : ℤ) (y : ℤ)).getD nidx (0, 0)).2
    (cfg.getD (l - 1) (0, 0)).2 (cfg.getD (l - 1) (0, 0)).1 ∧
  τs ≤ ss.getD (seg_index cfg (l - 1)
    ((get_cross_layer_neighbours (x : ℤ) (y : ℤ)).getD nidx (0, 0)).2
    ((get_cross_layer_neighbours (x : ℤ) (y : ℤ)).getD nidx (0, 0)).1) 0 ∧
  τl ≤ layer_cross_link_score cfg ls l (y : ℤ) (x : ℤ) nidx

/-- Anchor `a` has a qualifying link: some loop iteration of `group_segs`
executes a `union` with `a` as one of the two endpoints. -/
def has_qualifying_link (cfg : List (ℕ × ℕ)) (τs τl : ℚ) (ss ls : List ℚ) (a : ℕ) : Prop :=
  (∃ l x y nidx : ℕ,
    l < cfg.length ∧ x < (cfg.getD l (0, 0)).2 ∧ y < (cfg.getD l (0, 0)).1 ∧ nidx < 8 ∧
    inter_union_fires cfg τs τl ss ls l x y nidx ∧
    (a = seg_index cfg l (y : ℤ) (x : ℤ) ∨
     a = seg_index cfg l ((get_inter_layer_neighbours (x : ℤ) (y : ℤ)).getD nidx (0, 0)).2
           ((get_inter_layer_neighbours (x : ℤ) (y : ℤ)).getD nidx (0, 0)).1)) ∨
  (∃ l x y nidx : ℕ,
    0 < l ∧ l < cfg.length ∧ x < (cfg.getD l (0, 0)).2 ∧ y < (cfg.getD l (0, 0)).1 ∧
    nidx < 4 ∧ cross_union_fires cfg τs τl ss ls l x y nidx ∧
    (a = seg_index cfg l (y : ℤ) (x : ℤ) ∨
     a = seg_index cfg (l - 1) ((get_cross_layer_neighbours (x : ℤ) (y : ℤ)).getD nidx (0, 0)).2
           ((get_cross_layer_neighbours (x : ℤ) (y : ℤ)).getD nidx (0, 0)).1))

/-- State predicate: `a` is still a root and no parent pointer equals `a`, so
no executed union has involved `a` (unions point one existing root at
another, and both roots are reached from the unions' endpoints). -/
def untouched (a : ℕ) (m : Mask) : Prop :=
  m.parent a = -1 ∧ ∀ i : ℕ, m.parent i = -1 ∨ ∃ r : ℕ, r ≠ a ∧ m.parent i = (r : ℤ)

theorem get_root_ne_of_untouched (a : ℕ) (parent : ℕ → ℤ)
    (hpar : ∀ i : ℕ, parent i = -1 ∨ ∃ r : ℕ, r ≠ a ∧ parent i = (r : ℤ)) :
    ∀ (fuel idx : ℕ), idx ≠ a → get_root parent idx fuel ≠ a := by
  intro fuel
  induction fuel with
  | zero => intro idx h; exact h
  | succ fuel ih =>
    intro idx h
    unfold get_root
    split
    · exact h
    · next hne =>
      rcases hpar idx with hm | ⟨r, hr, hreq⟩
      · exact absurd hm hne
      · rw [hreq, Int.toNat_natCast]
        exact ih r hr

theorem get_root_self (parent : ℕ → ℤ) (a : ℕ) (h : parent a = -1) :
    ∀ fuel : ℕ, get_root parent a fuel = a := by
  intro fuel
  cases fuel with
  | zero => rfl
  | succ fuel =>
    unfold get_root
    rw [if_pos h]

theorem untouched_union (a : ℕ) (m : Mask) (fuel idx1 idx2 : ℕ) (hU : untouched a m)
    (h1 : idx1 ≠ a) (h2 : idx2 ≠ a) : untouched a (union m fuel idx1 idx2) := by
  obtain ⟨hpa, hpar⟩ := hU
  have hr1 : get_root m.parent idx1 fuel ≠ a :=
    get_root_ne_of_untouched a m.parent hpar fuel idx1 h1
  have hr2 : get_root m.parent idx2 fuel ≠ a :=
    get_root_ne_of_untouched a m.parent hpar fuel idx2 h2
  unfold union
  dsimp only
  split
  · refine ⟨?_, fun i => ?_⟩
    · dsimp only
      rw [Function.update_noteq (Ne.symm hr1)]
      exact hpa
    · dsimp only
      by_cases hi : i = get_root m.parent idx1 fuel
      · right
        exact ⟨get_root m.parent idx2 fuel, hr2, by rw [hi, Function.update_same]⟩
      · rw [Function.update_noteq hi]
        exact hpar i
  · exact ⟨hpa, hpar⟩

theorem foldl_pres {α : Type} (P : Mask → Prop) (f : Mask → α → Mask) (l : List α)
    (hf : ∀ m x, x ∈ l → P m → P (f m x)) :
    ∀ m : Mask, P m → P (l.foldl f m) := by
  induction l with
  | nil => intro m hm; exact hm
  | cons b t ih =>
    intro m hm
    rw [List.foldl_cons]
    exact ih (fun m' x hx hm' => hf m' x (List.mem_cons_of_mem b hx) hm') (f m b)
      (hf m b (List.mem_cons_self b t) hm)

theorem inter_step_untouched (cfg : List (ℕ × ℕ)) (τs τl : ℚ) (ss ls : List ℚ)
    (a l x y nidx : ℕ) (hl : l < cfg.length)
    (hx : x < (cfg.getD l (0, 0)).2) (hy : y < (cfg.getD l (0, 0)).1)
    (hcell : τs ≤ ss.getD (seg_index cfg l (y : ℤ) (x : ℤ)) 0) (hn : nidx < 8)
    (hno : ¬ has_qualifying_link cfg τs τl ss ls a) (m : Mask) (hU : untouched a m) :
    untouched a (inter_neighbour_step cfg τs τl ss ls l x y m nidx) := by
  unfold inter_neighbour_step
  dsimp only
  split
  · next hcond =>
    refine untouched_union a m ss.length _ _ hU ?_ ?_
    · intro heq
      exact hno (Or.inl ⟨l, x, y, nidx, hl, hx, hy, hn,
        ⟨hcell, hcond.1, hcond.2.1, hcond.2.2⟩, Or.inl heq.symm⟩)
    · intro heq
      exact hno (Or.inl ⟨l, x, y, nidx, hl, hx, hy, hn,
        ⟨hcell, hcond.1, hcond.2.1, hcond.2.2⟩, Or.inr heq.symm⟩)
  · exact hU

theorem cross_step_untouched (cfg : List (ℕ × ℕ)) (τs τl : ℚ) (ss ls : List ℚ)
    (a l x y nidx : ℕ) (hl0 : 0 < l) (hl : l < cfg.length)
    (hx : x < (cfg.getD l (0, 0)).2) (hy : y < (cfg.getD l (0, 0)).1)
    (hcell : τs ≤ ss.getD (seg_index cfg l (y : ℤ) (x : ℤ)) 0) (hn : nidx < 4)
    (hno : ¬ has_qualifying_link cfg τs τl ss ls a) (m : Mask) (hU : untouched a m) :
    untouched a (cross_neighbour_step cfg τs τl ss ls l x y m nidx) := by
  unfold cross_neighbour_step
  dsimp only
  split
  · next hcond =>
    refine untouched_union a m ss.length _ _ hU ?_ ?_
    · intro heq
      exact hno (Or.inr ⟨l, x, y, nidx, hl0, hl, hx, hy, hn,
        ⟨hcell, hcond.1, hcond.2.1, hcond.2.2⟩, Or.inl heq.symm⟩)
    · intro heq
      exact hno (Or.inr ⟨l, x, y, nidx, hl0, hl, hx, hy, hn,
        ⟨hcell, hcond.1, hcond.2.1, hcond.2.2⟩, Or.inr heq.symm⟩)
  · exact hU

theorem cell_step_untouched (cfg : List (ℕ × ℕ)) (τs τl : ℚ) (ss ls : List ℚ)
    (a l x y : ℕ) (hl : l < cfg.length)
    (hx : x < (cfg.getD l (0, 0)).2) (hy : y < (cfg.getD l (0, 0)).1)
    (hno : ¬ has_qualifying_link cfg τs τl ss ls a) (m : Mask) (hU : untouched a m) :
    untouched a (cell_step cfg τs τl ss ls l x y m) := by
  unfold cell_step
  split
  · next hcell =>
    have hinner : untouched a
        ((List.range 8).foldl (inter_neighbour_step cfg τs τl ss ls l x y) m) := by
      refine foldl_pres (untouched a) _ _ ?_ m hU
      intro m' nidx hnidx hU'
      exact inter_step_untouched cfg τs τl ss ls a l x y nidx hl hx hy hcell
        (List.mem_range.mp hnidx) hno m' hU'
    split
    · next hl0 =>
      refine foldl_pres (untouched a) _ _ ?_ _ hinner
      intro m' nidx hnidx hU'
      exact cross_step_untouched cfg τs τl ss ls a l x y nidx hl0 hl hx hy hcell
        (List.mem_range.mp hnidx) hno m' hU'
    · exact hinner
  · exact hU

theorem layer_step_untouched (cfg : List (ℕ × ℕ)) (τs τl : ℚ) (ss ls : List ℚ)
    (a l : ℕ) (hl : l < cfg.length)
    (hno : ¬ has_qualifying_link cfg τs τl ss ls a) (m : Mask) (hU : untouched a m) :
    untouched a (layer_step cfg τs τl ss ls m l) := by
  unfold layer_step
  refine foldl_pres (untouched a) _ _ ?_ m hU
  intro m2 y hy hU2
  refine foldl_pres (untouched a) _ _ ?_ m2 hU2
  intro m3 x hx hU3
  exact cell_step_untouched cfg τs τl ss ls a l x y hl
    (List.mem_range.mp hx) (List.mem_range.mp hy) hno m3 hU3

theorem filter_eq_single :
    ∀ (l : List ℕ) (a : ℕ), l.Nodup → a ∈ l → ∀ p : ℕ → Bool,
      p a = true → (∀ x ∈ l, x ≠ a → p x = false) → l.filter p = [a] := by
  intro l
  induction l with
  | nil => intro a _ ha; cases ha
  | cons b t ih =>
    intro a hnd ha p hpa hother
    rcases List.mem_cons.mp ha with hab | hat
    · subst hab
      rw [List.filter_cons, if_pos hpa]
      have hnil : t.filter p = [] := by
        refine List.filter_eq_nil_iff.mpr ?_
        intro x hx
        have hxa : x ≠ a := by
          intro hcontra
          exact (List.nodup_cons.mp hnd).1 (hcontra ▸ hx)
        rw [hother x (List.mem_cons_of_mem a hx) hxa]
        simp
      rw [hnil]
    · have hba : b ≠ a := by
        intro hb
        exact (List.nodup_cons.mp hnd).1 (hb ▸ hat)
      rw [List.filter_cons, if_neg (by rw [hother b (List.mem_cons_self b t) hba]; simp)]
      exact ih a (List.nodup_cons.mp hnd).2 hat p hpa
        (fun x hx hxa => hother x (List.mem_cons_of_mem b hx) hxa)

theorem to_list_singleton (m : Mask) (fuel : ℕ) (a : ℕ) (hnd : m.dom.Nodup)
    (hamem : a ∈ m.dom) (hU : untouched a m) : [a] ∈ to_list m fuel := by
  have hroot : get_root m.parent a fuel = a := get_root_self m.parent a hU.1 fuel
  have hfil : m.dom.filter (fun idx => get_root m.parent idx fuel = a) = [a] := by
    refine filter_eq_single m.dom a hnd hamem _ ?_ ?_
    · simp [hroot]
    · intro x hx hxa
      simp only [decide_eq_false_iff_not]
      exact get_root_ne_of_untouched a m.parent hU.2 fuel x hxa
  unfold to_list
  exact List.mem_map.mpr ⟨a, List.mem_dedup.mpr (List.mem_map.mpr ⟨a, hamem, hroot⟩), hfil⟩

theorem singleton_of_no_qualifying_link (cfg : List (ℕ × ℕ)) (τs τl : ℚ) (ss ls : List ℚ)
    (a : ℕ) (ha : a < ss.length) (hsc : τs ≤ ss.getD a 0)
    (hno : ¬ has_qualifying_link cfg τs τl ss ls a) :
    [a] ∈ group_segs cfg τs τl ss ls := by
  have hU : untouched a ((List.range cfg.length).foldl (layer_step cfg τs τl ss ls)
      ⟨valid_segs τs ss, fun _ => -1⟩) := by
    refine foldl_pres (untouched a) _ _ ?_ _ ⟨rfl, fun i => Or.inl rfl⟩
    intro m l hlm hPm
    exact layer_step_untouched cfg τs τl ss ls a l (List.mem_range.mp hlm) hno m hPm
  have hdom : ((List.range cfg.length).foldl (layer_step cfg τs τl ss ls)
      ⟨valid_segs τs ss, fun _ => -1⟩).dom = valid_segs τs ss :=
    foldl_dom _ (layer_step_dom cfg τs τl ss ls) _ _
  show [a] ∈ to_list ((List.range cfg.length).foldl (layer_step cfg τs τl ss ls)
      ⟨valid_segs τs ss, fun _ => -1⟩) ss.length
  refine to_list_singleton _ _ a ?_ ?_ hU
  · rw [hdom]
    exact (List.nodup_range _).filter _
  · rw [hdom]
    exact (mem_valid_segs τs ss a).mpr ⟨ha, hsc⟩

/-- C6: the groups returned by `group_segs` partition exactly the set of
anchor indices whose segment score passes the segment-confidence threshold:
every such anchor lies in exactly one group, no other anchor lies in any
group, no group is empty, and an above-threshold anchor with no qualifying
link forms the singleton group `[a]`. -/
theorem group_segs_partition (cfg : List (ℕ × ℕ)) (τs τl : ℚ) (ss ls : List ℚ) :
    (∀ i : ℕ, i ∈ (group_segs cfg τs τl ss ls).flatten ↔
        (i < ss.length ∧ τs ≤ ss.getD i 0)) ∧
    (group_segs cfg τs τl ss ls).flatten.Nodup ∧
    [] ∉ group_segs cfg τs τl ss ls ∧
    (∀ a : ℕ, a < ss.length → τs ≤ ss.getD a 0 →
      ¬ has_qualifying_link cfg τs τl ss ls a → [a] ∈ group_segs cfg τs τl ss ls) := by
  have hdom : ((List.range cfg.length).foldl (layer_step cfg τs τl ss ls)
      ⟨valid_segs τs ss, fun _ => -1⟩).dom = valid_segs τs ss :=
    foldl_dom _ (layer_step_dom cfg τs τl ss ls) _ _
  refine ⟨fun i => ?_, ?_, ?_, singleton_of_no_qualifying_link cfg τs τl ss ls⟩
  · show i ∈ (to_list _ _).flatten ↔ _
    rw [mem_to_list_flatten, hdom, mem_valid_segs]
  · refine to_list_flatten_nodup _ _ ?_
    rw [hdom]
    exact (List.nodup_range _).filter _
  · exact nil_not_mem_to_list _ _

/-- Witness for C6 on a 1×1 configuration with one above-threshold anchor:
the partition property instantiated at anchor 0, which has no qualifying
link (all neighbours are out of bounds) and so forms the singleton `[0]`. -/
theorem group_segs_partition_witness :
    (0 ∈ (group_segs [(1, 1)] 0 0 [1] []).flatten ↔
      (0 < ([1] : List ℚ).length ∧ (0 : ℚ) ≤ ([1] : List ℚ).getD 0 0)) ∧
    (group_segs [(1, 1)] 0 0 [1] []).flatten.Nodup ∧
    [] ∉ group_segs [(1, 1)] 0 0 [1] [] ∧
    [0] ∈ group_segs [(1, 1)] 0 0 [1] [] := by
  have hno : ¬ has_qualifying_link [(1, 1)] 0 0 [1] [] 0 := by
    rintro (⟨l, x, y, nidx, hl, hx, hy, hn, hf, -⟩ | ⟨l, x, y, nidx, hl0, hl1, -⟩)
    · simp only [List.length_cons, List.length_nil] at hl
      have hl' : l = 0 := by omega
      subst hl'
      simp only [List.getD_cons_zero] at hx hy
      have hx' : x = 0 := by omega
      have hy' : y = 0 := by omega
      subst hx' hy'
      have hval := hf.2.1
      interval_cases nidx <;> exact absurd hval (by decide)
    · simp only [List.length_cons, List.length_nil] at hl1
      omega
  exact ⟨(group_segs_partition [(1, 1)] 0 0 [1] []).1 0,
    (group_segs_partition [(1, 1)] 0 0 [1] []).2.1,
    (group_segs_partition [(1, 1)] 0 0 [1] []).2.2.1,
    (group_segs_partition [(1, 1)] 0 0 [1] []).2.2.2 0 (by decide) (by decide) hno⟩

/-! ### Geometry primitives

Oriented rectangles `(cx, cy, w, h, theta)` over `ℝ`, `theta` in degrees.
`cv2.getRotationMatrix2D(center, angle, scale=1)` is an external primitive,
modelled by its documented matrix
`[[a, b, (1-a)*ccx - b*ccy], [-b, a, b*ccx + (1-a)*ccy]]` with
`a = cos(angle·π/180)`, `b = sin(angle·π/180)`. -/

/-- An oriented rectangle `(cx, cy, w, h, theta)`. -/
structure Rect where
  cx : ℝ
  cy : ℝ
  w : ℝ
  h : ℝ
  theta : ℝ

/-- An anchor `(cx, cy, w, h)` (square: `w = h` in the configuration). -/
structure Anchor where
  cx : ℝ
  cy : ℝ
  w : ℝ
  h : ℝ

/-- The all-zero rectangle (a `seg_gt` row's initial value). -/
def zero_rect : Rect := ⟨0, 0, 0, 0, 0⟩

noncomputable section
open scoped Classical

/-- Embeds `transform_cv_rect`: normalize an OpenCV minimum-area rectangle into the
canonical form: when `|theta| > 45`, or `|theta| == 45` with `w < h`, swap
`w` and `h` and set `theta := 90 + theta`. -/
def transform_cv_rect (r : Rect) : Rect :=
  if 45 < |r.theta| ∨ (|r.theta| = 45 ∧ r.w < r.h) then
    { r with w := r.h, h := r.w, theta := 90 + r.theta }
  else r

/-- Image of a point under `cv2.getRotationMatrix2D(center, angle, 1)`. -/
def rotate_point (center : ℝ × ℝ) (angle : ℝ) (p : ℝ × ℝ) : ℝ × ℝ :=
  (Real.cos (angle * Real.pi / 180) * p.1 + Real.sin (angle * Real.pi / 180) * p.2 +
     (1 - Real.cos (angle * Real.pi / 180)) * center.1 -
     Real.sin (angle * Real.pi / 180) * center.2,
   -Real.sin (angle * Real.pi / 180) * p.1 + Real.cos (angle * Real.pi / 180) * p.2 +
     Real.sin (angle * Real.pi / 180) * center.1 +
     (1 - Real.cos (angle * Real.pi / 180)) * center.2)

/-- Step 2: rotate only the bbox's center about `center` by `theta`. -/
def rotate_oriented_bbox_to_horizontal (center : ℝ × ℝ) (bbox : Rect) : Rect :=
  { bbox with
    cx := (rotate_point center bbox.theta (bbox.cx, bbox.cy)).1
    cy := (rotate_point center bbox.theta (bbox.cx, bbox.cy)).2 }

/-- Step 3: intersect the horizontal extents of bbox and anchor and recompute
`cx, w` from the intersection; `cy, h` (and `theta`) unchanged. -/
def crop_horizontal_bbox_using_anchor (bbox : Rect) (anchor : Anchor) : Rect :=
  { bbox with
    cx := (max (bbox.cx - bbox.w / 2) (anchor.cx - anchor.w / 2) +
             min (bbox.cx + bbox.w / 2) (anchor.cx + anchor.w / 2)) / 2
    w := min (bbox.cx + bbox.w / 2) (anchor.cx + anchor.w / 2) -
           max (bbox.cx - bbox.w / 2) (anchor.cx - anchor.w / 2) }

/-- Step 4: rotate only the bbox's center about `center` by `-theta`. -/
def rotate_horizontal_bbox_to_oriented (center : ℝ × ℝ) (bbox : Rect) : Rect :=
  { bbox with
    cx := (rotate_point center (-bbox.theta) (bbox.cx, bbox.cy)).1
    cy := (rotate_point center (-bbox.theta) (bbox.cx, bbox.cy)).2 }

/-- The four-step anchor-local segment derivation
(`cal_seg_gt_for_single_anchor`). -/
def cal_seg_gt_for_single_anchor (anchor : Anchor) (rect : Rect) : Rect :=
  rotate_horizontal_bbox_to_oriented (anchor.cx, anchor.cy)
    (crop_horizontal_bbox_using_anchor
      (rotate_oriented_bbox_to_horizontal (anchor.cx, anchor.cy) rect) anchor)

end

/-- C9: `crop_horizontal_bbox_using_anchor` changes only `cx` and `w`
(recomputed from the intersection of the horizontal extents), keeping `cy`,
`h` and `theta`; both rotation steps change only `cx` and `cy`, keeping `w`,
`h` and `theta`. -/
theorem step_frame_effects (bbox : Rect) (anchor : Anchor) (center : ℝ × ℝ) :
    ((crop_horizontal_bbox_using_anchor bbox anchor).cy = bbox.cy ∧
     (crop_horizontal_bbox_using_anchor bbox anchor).h = bbox.h ∧
     (crop_horizontal_bbox_using_anchor bbox anchor).theta = bbox.theta ∧
     (crop_horizontal_bbox_using_anchor bbox anchor).cx =
       (max (bbox.cx - bbox.w / 2) (anchor.cx - anchor.w / 2) +
          min (bbox.cx + bbox.w / 2) (anchor.cx + anchor.w / 2)) / 2 ∧
     (crop_horizontal_bbox_using_anchor bbox anchor).w =
       min (bbox.cx + bbox.w / 2) (anchor.cx + anchor.w / 2) -
         max (bbox.cx - bbox.w / 2) (anchor.cx - anchor.w / 2)) ∧
    ((rotate_oriented_bbox_to_horizontal center bbox).w = bbox.w ∧
     (rotate_oriented_bbox_to_horizontal center bbox).h = bbox.h ∧
     (rotate_oriented_bbox_to_horizontal center bbox).theta = bbox.theta) ∧
    ((rotate_horizontal_bbox_to_oriented center bbox).w = bbox.w ∧
     (rotate_horizontal_bbox_to_oriented center bbox).h = bbox.h ∧
     (rotate_horizontal_bbox_to_oriented center bbox).theta = bbox.theta) :=
  ⟨⟨rfl, rfl, rfl, rfl, rfl⟩, ⟨rfl, rfl, rfl⟩, ⟨rfl, rfl, rfl⟩⟩

/-- Helper: the four-step derivation never changes `theta`. -/
theorem cal_seg_gt_theta_eq (anchor : Anchor) (rect : Rect) :
    (cal_seg_gt_for_single_anchor anchor rect).theta = rect.theta := rfl

/-- Helper: for a raw angle in OpenCV's `[-90, 0]` range, the normalized
angle lies in `[-45, 45]`. -/
theorem transform_cv_rect_theta_bound (r : Rect) (h1 : -90 ≤ r.theta) (h2 : r.theta ≤ 0) :
    -45 ≤ (transform_cv_rect r).theta ∧ (transform_cv_rect r).theta ≤ 45 := by
  unfold transform_cv_rect
  split_ifs with hc
  · dsimp only
    rcases hc with hgt | ⟨heq, _⟩
    · rcases abs_cases r.theta with ⟨he, hp⟩ | ⟨he, hp⟩
      · constructor <;> linarith [he ▸ hgt]
      · constructor <;> linarith [he ▸ hgt]
    · rcases (abs_eq (by norm_num : (0:ℝ) ≤ 45)).mp heq with he | he
      · constructor <;> linarith
      · constructor <;> linarith
  · push_neg at hc
    have := abs_le.mp (le_of_not_lt (fun hlt => absurd hlt (by simpa using hc.1)))
    constructor <;> linarith [this.1, this.2]

/-! ### Anchor matcher (`match_anchor_to_text_boxes`)

The external primitives are parameters: `contains point b` stands for
`util.img.is_in_contour(point, cnts[b])`, and `rawRects` for the output of
`min_area_rect` (OpenCV `minAreaRect` applied to each polygon).  `mhr` is the
configured `max_height_ratio`.  An anchor's result starts at
`(-1, zero_rect)` and the loop over polygons overwrites it each time both the
containment and the scale test pass. -/

noncomputable section
open scoped Classical

/-- Scale-compatibility test: `height = min(w, h)`, `ratio = aw / height`,
require `max(ratio, 1/ratio) <= max_height_ratio`. -/
def height_matched (mhr : ℝ) (anchor : Anchor) (rect : Rect) : Prop :=
  max (anchor.w / min rect.w rect.h) (1 / (anchor.w / min rect.w rect.h)) ≤ mhr

/-- The condition under which the loop body overwrites anchor's result with
polygon `b`: containment of the anchor's center and scale compatibility with
the normalized rectangle. -/
def anchor_matches (mhr : ℝ) (contains : ℝ × ℝ → ℕ → Bool) (rawRects : List Rect)
    (anchor : Anchor) (b : ℕ) : Prop :=
  contains (anchor.cx, anchor.cy) b = true ∧
  height_matched mhr anchor (transform_cv_rect (rawRects.getD b zero_rect))

/-- Loop body over polygons for one anchor: skip when the center is not
contained, overwrite label and regression target when both tests pass. -/
def match_step (mhr : ℝ) (contains : ℝ × ℝ → ℕ → Bool) (rawRects : List Rect)
    (anchor : Anchor) (acc : ℤ × Rect) (b : ℕ) : ℤ × Rect :=
  if contains (anchor.cx, anchor.cy) b = false then acc
  else
    if height_matched mhr anchor (transform_cv_rect (rawRects.getD b zero_rect)) then
      ((b : ℤ), cal_seg_gt_for_single_anchor anchor (transform_cv_rect (rawRects.getD b zero_rect)))
    else acc

/-- The matcher's result for one anchor. -/
def match_one (mhr : ℝ) (contains : ℝ × ℝ → ℕ → Bool) (rawRects : List Rect)
    (anchor : Anchor) : ℤ × Rect :=
  (List.range rawRects.length).foldl (match_step mhr contains rawRects anchor) (-1, zero_rect)

/-- Embeds `match_anchor_to_text_boxes`: per-anchor `(label, seg_gt)` rows. -/
def match_anchor_to_text_boxes (mhr : ℝ) (contains : ℝ × ℝ → ℕ → Bool)
    (anchors : List Anchor) (rawRects : List Rect) : List (ℤ × Rect) :=
  anchors.map (match_one mhr contains rawRects)

end

/-! ### Fold lemmas for the matcher -/

theorem match_step_of_matches (mhr : ℝ) (contains : ℝ × ℝ → ℕ → Bool) (rawRects : List Rect)
    (anchor : Anchor) (acc : ℤ × Rect) (b : ℕ)
    (hb : anchor_matches mhr contains rawRects anchor b) :
    match_step mhr contains rawRects anchor acc b =
      ((b : ℤ), cal_seg_gt_for_single_anchor anchor
        (transform_cv_rect (rawRects.getD b zero_rect))) := by
  unfold match_step
  rw [if_neg (by simp [hb.1]), if_pos hb.2]

theorem match_step_of_not_matches (mhr : ℝ) (contains : ℝ × ℝ → ℕ → Bool)
    (rawRects : List Rect) (anchor : Anchor) (acc : ℤ × Rect) (b : ℕ)
    (hb : ¬ anchor_matches mhr contains rawRects anchor b) :
    match_step mhr contains rawRects anchor acc b = acc := by
  unfold match_step
  by_cases hc : contains (anchor.cx, anchor.cy) b = false
  · rw [if_pos hc]
  · rw [if_neg hc, if_neg]
    intro hh
    exact hb ⟨by revert hc; cases contains (anchor.cx, anchor.cy) b <;> simp, hh⟩

theorem match_fold_none (mhr : ℝ) (contains : ℝ × ℝ → ℕ → Bool) (rawRects : List Rect)
    (anchor : Anchor) (n : ℕ)
    (h : ∀ b, b < n → ¬ anchor_matches mhr contains rawRects anchor b) :
    ∀ acc : ℤ × Rect,
      (List.range n).foldl (match_step mhr contains rawRects anchor) acc = acc := by
  induction n with
  | zero => intro acc; rfl
  | succ n ih =>
    intro acc
    rw [List.range_succ, List.foldl_append, ih (fun b hb => h b (by omega))]
    simp only [List.foldl_cons, List.foldl_nil]
    exact match_step_of_not_matches _ _ _ _ _ _ (h n (by omega))

theorem match_fold_last (mhr : ℝ) (contains : ℝ × ℝ → ℕ → Bool) (rawRects : List Rect)
    (anchor : Anchor) (n b : ℕ) (hbn : b < n)
    (hb : anchor_matches mhr contains rawRects anchor b)
    (hlast : ∀ b', b < b' → b' < n → ¬ anchor_matches mhr contains rawRects anchor b') :
    ∀ acc : ℤ × Rect,
      (List.range n).foldl (match_step mhr contains rawRects anchor) acc =
        ((b : ℤ), cal_seg_gt_for_single_anchor anchor
          (transform_cv_rect (rawRects.getD b zero_rect))) := by
  induction n with
  | zero => omega
  | succ n ih =>
    intro acc
    rw [List.range_succ, List.foldl_append]
    simp only [List.foldl_cons, List.foldl_nil]
    by_cases hbe : b = n
    · subst hbe
      exact match_step_of_matches _ _ _ _ _ _ hb
    · rw [match_step_of_not_matches _ _ _ _ _ _ (hlast n (by omega) (by omega))]
      exact ih (by omega) (fun b' h1 h2 => hlast b' h1 (by omega)) acc

theorem match_fold_cases (mhr : ℝ) (contains : ℝ × ℝ → ℕ → Bool) (rawRects : List Rect)
    (anchor : Anchor) (n : ℕ) (acc : ℤ × Rect) :
    (List.range n).foldl (match_step mhr contains rawRects anchor) acc = acc ∨
    ∃ b, b < n ∧ anchor_matches mhr contains rawRects anchor b ∧
      (List.range n).foldl (match_step mhr contains rawRects anchor) acc =
        ((b : ℤ), cal_seg_gt_for_single_anchor anchor
          (transform_cv_rect (rawRects.getD b zero_rect))) := by
  induction n with
  | zero => left; rfl
  | succ n ih =>
    rw [List.range_succ, List.foldl_append]
    simp only [List.foldl_cons, List.foldl_nil]
    by_cases hm : anchor_matches mhr contains rawRects anchor n
    · right
      exact ⟨n, by omega, hm, by rw [match_step_of_matches _ _ _ _ _ _ hm]⟩
    · rw [match_step_of_not_matches _ _ _ _ _ _ hm]
      rcases ih with h | ⟨b, hb1, hb2, hb3⟩
      · left; exact h
      · right; exact ⟨b, by omega, hb2, hb3⟩

theorem getD_map_of_lt {α β : Type} (f : α → β) (l : List α) (i : ℕ) (hi : i < l.length)
    (d : α) (d' : β) : (l.map f).getD i d' = f (l.getD i d) := by
  rw [List.getD_eq_getElem?_getD, List.getD_eq_getElem?_getD, List.getElem?_map,
    List.getElem?_eq_getElem hi]
  rfl

/-- C4: last-write-wins tie-break — when an anchor passes both tests for
several polygons, its row equals the label and four-step target of the last
matching polygon in iteration order, and an anchor matching no polygon keeps
`(-1, zero_rect)`. -/
theorem match_last_write_wins (mhr : ℝ) (contains : ℝ × ℝ → ℕ → Bool)
    (anchors : List Anchor) (rawRects : List Rect) (i : ℕ) (hi : i < anchors.length) :
    ((∀ b, b < rawRects.length →
        ¬ anchor_matches mhr contains rawRects (anchors.getD i ⟨0, 0, 0, 0⟩) b) →
      (match_anchor_to_text_boxes mhr contains anchors rawRects).getD i (-1, zero_rect) =
        (-1, zero_rect)) ∧
    (∀ b, b < rawRects.length →
      anchor_matches mhr contains rawRects (anchors.getD i ⟨0, 0, 0, 0⟩) b →
      (∀ b', b < b' → b' < rawRects.length →
        ¬ anchor_matches mhr contains rawRects (anchors.getD i ⟨0, 0, 0, 0⟩) b') →
      (match_anchor_to_text_boxes mhr contains anchors rawRects).getD i (-1, zero_rect) =
        ((b : ℤ), cal_seg_gt_for_single_anchor (anchors.getD i ⟨0, 0, 0, 0⟩)
          (transform_cv_rect (rawRects.getD b zero_rect)))) := by
  have hres : (match_anchor_to_text_boxes mhr contains anchors rawRects).getD i (-1, zero_rect) =
      match_one mhr contains rawRects (anchors.getD i ⟨0, 0, 0, 0⟩) :=
    getD_map_of_lt _ _ _ hi _ _
  constructor
  · intro hnone
    rw [hres]
    exact match_fold_none mhr contains rawRects _ _ hnone _
  · intro b hbn hb hlast
    rw [hres]
    exact match_fold_last mhr contains rawRects _ _ b hbn hb hlast _

/-- Witness for C4: with an always-true containment test and two identical
unit polygons, the anchor matches both and receives the second polygon's
label `1`. -/
theorem match_last_write_wins_witness :
    (match_anchor_to_text_boxes 2 (fun _ _ => true) [⟨0, 0, 1, 1⟩]
        [⟨0, 0, 1, 1, 0⟩, ⟨0, 0, 1, 1, 0⟩]).getD 0 (-1, zero_rect) =
      (1, cal_seg_gt_for_single_anchor (([⟨0, 0, 1, 1⟩] : List Anchor).getD 0 ⟨0, 0, 0, 0⟩)
        (transform_cv_rect (([⟨0, 0, 1, 1, 0⟩, ⟨0, 0, 1, 1, 0⟩] : List Rect).getD 1 zero_rect))) := by
  have htr : transform_cv_rect (([⟨0, 0, 1, 1, 0⟩, ⟨0, 0, 1, 1, 0⟩] : List Rect).getD 1 zero_rect) =
      (⟨0, 0, 1, 1, 0⟩ : Rect) := by
    show transform_cv_rect ⟨0, 0, 1, 1, 0⟩ = _
    unfold transform_cv_rect
    rw [if_neg]
    rintro (h45 | ⟨-, hwh⟩)
    · norm_num at h45
    · norm_num at hwh
  have hm : anchor_matches 2 (fun _ _ => true) [⟨0, 0, 1, 1, 0⟩, ⟨0, 0, 1, 1, 0⟩]
      (([⟨0, 0, 1, 1⟩] : List Anchor).getD 0 ⟨0, 0, 0, 0⟩) 1 := by
    refine ⟨rfl, ?_⟩
    rw [htr]
    show max ((1 : ℝ) / min 1 1) (1 / ((1 : ℝ) / min 1 1)) ≤ 2
    norm_num
  exact (match_last_write_wins 2 (fun _ _ => true) [⟨0, 0, 1, 1⟩]
    [⟨0, 0, 1, 1, 0⟩, ⟨0, 0, 1, 1, 0⟩] 0 (by norm_num)).2 1 (by norm_num) hm
    (fun b' h1 h2 => by
      simp only [List.length_cons, List.length_nil] at h2
      omega)

theorem getD_mem_of_lt {α : Type} (l : List α) (i : ℕ) (hi : i < l.length) (d : α) :
    l.getD i d ∈ l := by
  rw [List.getD_eq_getElem?_getD, List.getElem?_eq_getElem hi]
  exact List.getElem_mem hi

/-- C5: assuming every raw minimum-area-rect angle lies in OpenCV's
`[-90, 0]` range, every matched anchor's regression target has
`theta ∈ [-45, 45]`; `transform_cv_rect` enforces the canonical bound and the
four-step derivation never changes `theta`. -/
theorem matched_theta_canonical (mhr : ℝ) (contains : ℝ × ℝ → ℕ → Bool)
    (anchors : List Anchor) (rawRects : List Rect)
    (hraw : ∀ r ∈ rawRects, -90 ≤ r.theta ∧ r.theta ≤ 0) :
    (∀ i : ℕ,
      0 ≤ ((match_anchor_to_text_boxes mhr contains anchors rawRects).getD i
          (-1, zero_rect)).1 →
      -45 ≤ ((match_anchor_to_text_boxes mhr contains anchors rawRects).getD i
          (-1, zero_rect)).2.theta ∧
        ((match_anchor_to_text_boxes mhr contains anchors rawRects).getD i
          (-1, zero_rect)).2.theta ≤ 45) ∧
    (∀ (anchor : Anchor) (rect : Rect),
      (cal_seg_gt_for_single_anchor anchor rect).theta = rect.theta) ∧
    (∀ r : Rect, -90 ≤ r.theta → r.theta ≤ 0 →
      -45 ≤ (transform_cv_rect r).theta ∧ (transform_cv_rect r).theta ≤ 45) := by
  refine ⟨?_, cal_seg_gt_theta_eq, transform_cv_rect_theta_bound⟩
  intro i hge
  by_cases hi : i < anchors.length
  · have hres : (match_anchor_to_text_boxes mhr contains anchors rawRects).getD i
        (-1, zero_rect) = match_one mhr contains rawRects (anchors.getD i ⟨0, 0, 0, 0⟩) :=
      getD_map_of_lt _ _ _ hi _ _
    rw [hres] at hge ⊢
    rcases match_fold_cases mhr contains rawRects (anchors.getD i ⟨0, 0, 0, 0⟩)
        rawRects.length (-1, zero_rect) with hc | ⟨b, hb1, _, hc⟩
    · unfold match_one at hge
      rw [hc] at hge
      norm_num at hge
    · unfold match_one
      rw [hc]
      dsimp only
      rw [cal_seg_gt_theta_eq]
      have hmem := getD_mem_of_lt rawRects b hb1 zero_rect
      exact transform_cv_rect_theta_bound _ (hraw _ hmem).1 (hraw _ hmem).2
  · rw [List.getD_eq_default] at hge
    · norm_num at hge
    · unfold match_anchor_to_text_boxes
      rw [List.length_map]
      omega

/-- Witness for C5: one anchor, one polygon with raw angle `-60`; the matched
target's angle is the canonical `30`, inside `[-45, 45]`. -/
theorem matched_theta_canonical_witness :
    -45 ≤ ((match_anchor_to_text_boxes 2 (fun _ _ => true) [⟨0, 0, 1, 1⟩]
        [⟨0, 0, 1, 1, -60⟩]).getD 0 (-1, zero_rect)).2.theta ∧
      ((match_anchor_to_text_boxes 2 (fun _ _ => true) [⟨0, 0, 1, 1⟩]
        [⟨0, 0, 1, 1, -60⟩]).getD 0 (-1, zero_rect)).2.theta ≤ 45 := by
  have htr : transform_cv_rect (([⟨0, 0, 1, 1, -60⟩] : List Rect).getD 0 zero_rect) =
      (⟨0, 0, 1, 1, 30⟩ : Rect) := by
    show transform_cv_rect ⟨0, 0, 1, 1, -60⟩ = _
    unfold transform_cv_rect
    rw [if_pos (Or.inl (by norm_num))]
    show Rect.mk 0 0 1 1 (90 + (-60)) = _
    norm_num
  have hm : anchor_matches 2 (fun _ _ => true) [⟨0, 0, 1, 1, -60⟩]
      (([⟨0, 0, 1, 1⟩] : List Anchor).getD 0 ⟨0, 0, 0, 0⟩) 0 := by
    refine ⟨rfl, ?_⟩
    rw [htr]
    show max ((1 : ℝ) / min 1 1) (1 / ((1 : ℝ) / min 1 1)) ≤ 2
    norm_num
  have hge : 0 ≤ ((match_anchor_to_text_boxes 2 (fun _ _ => true) [⟨0, 0, 1, 1⟩]
      [⟨0, 0, 1, 1, -60⟩]).getD 0 (-1, zero_rect)).1 := by
    have hres : (match_anchor_to_text_boxes 2 (fun _ _ => true) [⟨0, 0, 1, 1⟩]
        [⟨0, 0, 1, 1, -60⟩]).getD 0 (-1, zero_rect) =
        match_one 2 (fun _ _ => true) [⟨0, 0, 1, 1, -60⟩]
          (([⟨0, 0, 1, 1⟩] : List Anchor).getD 0 ⟨0, 0, 0, 0⟩) :=
      getD_map_of_lt _ _ _ (by norm_num) _ _
    rw [hres]
    unfold match_one
    rw [match_fold_last 2 (fun _ _ => true) [⟨0, 0, 1, 1, -60⟩] _ _ 0
      (by simp) hm (fun b' h1 h2 => by
        simp only [List.length_cons, List.length_nil] at h2
        omega) _]
    norm_num
  exact (matched_theta_canonical 2 (fun _ _ => true) [⟨0, 0, 1, 1⟩] [⟨0, 0, 1, 1, -60⟩]
    (by
      intro r hr
      simp only [List.mem_singleton] at hr
      subst hr
      norm_num)).1 0 hge

/-! ### Top-level encoder (`get_all_seglink_gt`)

`config.default_anchors` and the polygon primitives stay parameters; the
returned labels are binarized (`labels >= 0` as int32) after the link ground
truth was computed from the raw match labels. -/

noncomputable section
open scoped Classical

/-- Embeds `get_all_seglink_gt(xs, ys, normalize)`: match, build links from the raw
labels (propagating `cal_link_gt`'s abort: the call happens before anything
is returned), optionally normalize the segment rows by
`[w_I, h_I, w_I, h_I, 1.0]`, and binarize the labels. -/
def get_all_seglink_gt (cfg : List (ℕ × ℕ)) (mhr : ℝ) (contains : ℝ × ℝ → ℕ → Bool)
    (anchors : List Anchor) (rawRects : List Rect) (normalize : Bool) (w_I h_I : ℝ) :
    Option (List ℤ × List Rect × List ℤ) :=
  match cal_link_gt cfg
      ((match_anchor_to_text_boxes mhr contains anchors rawRects).map Prod.fst) with
  | none => none
  | some link_gt =>
      some (((match_anchor_to_text_boxes mhr contains anchors rawRects).map Prod.fst).map
          (fun v => if 0 ≤ v then 1 else 0),
        (if normalize then
            ((match_anchor_to_text_boxes mhr contains anchors rawRects).map Prod.snd).map
              (fun r => ⟨r.cx / w_I, r.cy / h_I, r.w / w_I, r.h / h_I, r.theta / 1⟩)
          else (match_anchor_to_text_boxes mhr contains anchors rawRects).map Prod.snd),
        link_gt)

end

/-- C10: `get_all_seglink_gt` returns a value exactly on configurations with
at least two layers, and whenever it returns, its labels component is the
binarization of the internal match labels: every entry is 0 or 1, and an
entry is 1 exactly when that anchor's internal match label is non-negative —
polygon indices are not exposed. -/
theorem get_all_labels_binarized (cfg : List (ℕ × ℕ)) (mhr : ℝ)
    (contains : ℝ × ℝ → ℕ → Bool) (anchors : List Anchor) (rawRects : List Rect)
    (normalize : Bool) (w_I h_I : ℝ) :
    ((∃ out, get_all_seglink_gt cfg mhr contains anchors rawRects normalize w_I h_I =
        some out) ↔ 1 < cfg.length) ∧
    (∀ out, get_all_seglink_gt cfg mhr contains anchors rawRects normalize w_I h_I =
        some out →
      out.1 = (match_anchor_to_text_boxes mhr contains anchors rawRects).map
        (fun p => if 0 ≤ p.1 then 1 else 0)) ∧
    (∀ out, get_all_seglink_gt cfg mhr contains anchors rawRects normalize w_I h_I =
        some out →
      ∀ i : ℕ, out.1.getD i 0 = 0 ∨ out.1.getD i 0 = 1) ∧
    (∀ out, get_all_seglink_gt cfg mhr contains anchors rawRects normalize w_I h_I =
        some out →
      ∀ i : ℕ, (out.1.getD i 0 = 1 ↔
        (i < anchors.length ∧
          0 ≤ ((match_anchor_to_text_boxes mhr contains anchors rawRects).getD i
            (-1, zero_rect)).1))) := by
  have hlenM : (match_anchor_to_text_boxes mhr contains anchors rawRects).length =
      anchors.length := List.length_map _ _
  have hcal : ∀ labels : List ℤ, 1 < cfg.length → ∃ L, cal_link_gt cfg labels = some L := by
    intro labels hlt
    exact ⟨_, by unfold cal_link_gt; rw [if_pos hlt]⟩
  have hcal' : ∀ labels : List ℤ, ¬ 1 < cfg.length → cal_link_gt cfg labels = none := by
    intro labels hlt
    unfold cal_link_gt
    rw [if_neg hlt]
  have hbin : ∀ out,
      get_all_seglink_gt cfg mhr contains anchors rawRects normalize w_I h_I = some out →
      out.1 = ((match_anchor_to_text_boxes mhr contains anchors rawRects).map Prod.fst).map
        (fun v => if 0 ≤ v then 1 else 0) := by
    intro out hout
    unfold get_all_seglink_gt at hout
    rcases hL : cal_link_gt cfg
        ((match_anchor_to_text_boxes mhr contains anchors rawRects).map Prod.fst) with
      _ | L
    · rw [hL] at hout
      exact absurd hout (by simp)
    · rw [hL] at hout
      dsimp only at hout
      have h1 := Option.some.inj hout
      rw [← h1]
  refine ⟨?_, fun out hout => by rw [hbin out hout, List.map_map]; rfl,
    fun out hout i => ?_, fun out hout i => ?_⟩
  · constructor
    · rintro ⟨out, hout⟩
      by_contra hlt
      unfold get_all_seglink_gt at hout
      rw [hcal' _ hlt] at hout
      exact absurd hout (by simp)
    · intro hlt
      obtain ⟨L, hL⟩ := hcal
        ((match_anchor_to_text_boxes mhr contains anchors rawRects).map Prod.fst) hlt
      refine ⟨(((match_anchor_to_text_boxes mhr contains anchors rawRects).map Prod.fst).map
          (fun v => if 0 ≤ v then 1 else 0),
        (if normalize then
            ((match_anchor_to_text_boxes mhr contains anchors rawRects).map Prod.snd).map
              (fun r => ⟨r.cx / w_I, r.cy / h_I, r.w / w_I, r.h / h_I, r.theta / 1⟩)
          else (match_anchor_to_text_boxes mhr contains anchors rawRects).map Prod.snd),
        L), ?_⟩
      unfold get_all_seglink_gt
      rw [hL]
  · rw [hbin out hout]
    by_cases hi : i < anchors.length
    · rw [getD_map_of_lt _ _ i (by rw [List.length_map, hlenM]; exact hi) (-1) 0]
      split_ifs
      · right; rfl
      · left; rfl
    · rw [List.getD_eq_default]
      · left; rfl
      · rw [List.length_map, List.length_map, hlenM]; omega
  · rw [hbin out hout]
    by_cases hi : i < anchors.length
    · rw [getD_map_of_lt _ _ i (by rw [List.length_map, hlenM]; exact hi) (-1) 0,
        getD_map_of_lt Prod.fst _ i (by rw [hlenM]; exact hi) (-1, zero_rect) (-1)]
      constructor
      · intro h1
        refine ⟨hi, ?_⟩
        by_contra hneg
        rw [if_neg hneg] at h1
        exact absurd h1 (by norm_num)
      · intro h2
        rw [if_pos h2.2]
    · rw [List.getD_eq_default]
      · constructor
        · intro h0; exact absurd h0 (by norm_num)
        · intro h2; exact absurd h2.1 hi
      · rw [List.length_map, List.length_map, hlenM]; omega

/-- Witness for C10 on a two-layer 1×1 configuration with two unmatched
anchors: the encoder returns, its labels are the all-zero binarization, and
each part of the characterization holds at anchor 0. -/
theorem get_all_labels_binarized_witness :
    ((∃ out, get_all_seglink_gt [(1, 1), (1, 1)] 1 (fun _ _ => false)
        [⟨0, 0, 1, 1⟩, ⟨0, 0, 1, 1⟩] [] false 1 1 = some out) ↔
      1 < ([(1, 1), (1, 1)] : List (ℕ × ℕ)).length) ∧
    ((([0, 0] : List ℤ), ([zero_rect, zero_rect] : List Rect),
        List.replicate 20 (0 : ℤ)).1 =
      (match_anchor_to_text_boxes 1 (fun _ _ => false)
        [⟨0, 0, 1, 1⟩, ⟨0, 0, 1, 1⟩] []).map (fun p => if 0 ≤ p.1 then 1 else 0)) ∧
    ((([0, 0] : List ℤ), ([zero_rect, zero_rect] : List Rect),
        List.replicate 20 (0 : ℤ)).1.getD 0 0 = 0 ∨
      (([0, 0] : List ℤ), ([zero_rect, zero_rect] : List Rect),
        List.replicate 20 (0 : ℤ)).1.getD 0 0 = 1) ∧
    ((([0, 0] : List ℤ), ([zero_rect, zero_rect] : List Rect),
        List.replicate 20 (0 : ℤ)).1.getD 0 0 = 1 ↔
      (0 < ([⟨0, 0, 1, 1⟩, ⟨0, 0, 1, 1⟩] : List Anchor).length ∧
        0 ≤ ((match_anchor_to_text_boxes 1 (fun _ _ => false)
          [⟨0, 0, 1, 1⟩, ⟨0, 0, 1, 1⟩] []).getD 0 (-1, zero_rect)).1)) := by
  have heval : get_all_seglink_gt [(1, 1), (1, 1)] 1 (fun _ _ => false)
      [⟨0, 0, 1, 1⟩, ⟨0, 0, 1, 1⟩] ([] : List Rect) false 1 1 =
      some (([0, 0] : List ℤ), ([zero_rect, zero_rect] : List Rect),
        List.replicate 20 (0 : ℤ)) := by
    rfl
  exact ⟨(get_all_labels_binarized [(1, 1), (1, 1)] 1 (fun _ _ => false)
      [⟨0, 0, 1, 1⟩, ⟨0, 0, 1, 1⟩] [] false 1 1).1,
    (get_all_labels_binarized [(1, 1), (1, 1)] 1 (fun _ _ => false)
      [⟨0, 0, 1, 1⟩, ⟨0, 0, 1, 1⟩] [] false 1 1).2.1 _ heval,
    (get_all_labels_binarized [(1, 1), (1, 1)] 1 (fun _ _ => false)
      [⟨0, 0, 1, 1⟩, ⟨0, 0, 1, 1⟩] [] false 1 1).2.2.1 _ heval 0,
    (get_all_labels_binarized [(1, 1), (1, 1)] 1 (fun _ _ => false)
      [⟨0, 0, 1, 1⟩, ⟨0, 0, 1, 1⟩] [] false 1 1).2.2.2 _ heval 0⟩

/-! ### Box synthesizer (`combine_segs`)

Angles are degrees; `sin/cos/tan` are the source's helpers.  The all-pairs
farthest-point loop keeps `(max_dist, idx1, idx2)`, starting from
`(0, -1, -1)` and updating on strict improvement; the "no pair found yet"
state `idx = -1` is embedded as `none`, so `combine_segs` returns `none` exactly
when the source's `assert idx1 >= 0 and idx2 >= 0` fails
(an `AssertionError`). -/

noncomputable section
open scoped Classical

/-- Degree sine (`np.sin(theta / 180.0 * np.pi)`). -/
def sin (theta : ℝ) : ℝ := Real.sin (theta / 180 * Real.pi)

/-- Degree cosine. -/
def cos (theta : ℝ) : ℝ := Real.cos (theta / 180 * Real.pi)

/-- Degree tangent. -/
def tan (theta : ℝ) : ℝ := Real.tan (theta / 180 * Real.pi)

/-- Mean of a list (`np.mean`). -/
def mean (l : List ℝ) : ℝ := l.sum / l.length

/-- Average of the group's thetas (`bar_theta`). -/
def bar_theta (segs : List Rect) : ℝ := mean (segs.map Rect.theta)

/-- The fitted slope `k = tan(bar_theta)`. -/
def line_k (segs : List Rect) : ℝ := tan (bar_theta segs)

/-- The fitted intercept `b = mean(cy_i - k * cx_i)`. -/
def line_b (segs : List Rect) : ℝ :=
  mean (segs.map (fun s => s.cy - line_k segs * s.cx))

/-- Projection scalar of the `i`-th center on the direction `(1, k)` after
shifting by `-b`: `(cx + k*(cy - b)) / sqrt(1 + k^2)`. -/
def proj (segs : List Rect) (i : ℕ) : ℝ :=
  ((segs.getD i zero_rect).cx + line_k segs * ((segs.getD i zero_rect).cy - line_b segs)) /
    Real.sqrt (1 + line_k segs ^ 2)

/-- Projected point `(proj * cos(bar_theta), proj * sin(bar_theta))`. -/
def proj_point (segs : List Rect) (i : ℕ) : ℝ × ℝ :=
  (proj segs i * cos (bar_theta segs), proj segs i * sin (bar_theta segs))

/-- Euclidean distance of the `i`-th and `j`-th projected points. -/
def pair_dist (segs : List Rect) (i j : ℕ) : ℝ :=
  Real.sqrt (((proj_point segs i).1 - (proj_point segs j).1) ^ 2 +
    ((proj_point segs i).2 - (proj_point segs j).2) ^ 2)

/-- Index pairs `(i, j)` with `i < j < n`, in the order of the source's
nested loops. -/
def allPairs (n : ℕ) : List (ℕ × ℕ) :=
  (List.range n).flatMap (fun i =>
    ((List.range n).filter (fun j => i < j)).map (fun j => (i, j)))

/-- Loop body of the farthest-pair search: update the best
`(max_dist, pair)` state on strict improvement (`dist > max_dist`). -/
def search_step {α : Type} (g : α → ℝ) (acc : ℝ × Option α) (x : α) : ℝ × Option α :=
  if acc.1 < g x then (g x, some x) else acc

/-- The farthest-pair search over every `i < j` pair, starting from
`(0, none)` — the source's `(0, -1, -1)`. -/
def max_dist_search (segs : List Rect) : ℝ × Option (ℕ × ℕ) :=
  (allPairs segs.length).foldl (search_step (fun ij => pair_dist segs ij.1 ij.2)) (0, none)

/-- Embeds `combine_segs`: `none` when no strictly-improving pair was ever found
(the source's failing assertion), else the final box
`(bcx, bcy, bw, bh, bar_theta, b)`. -/
def combine_segs (segs : List Rect) : Option (ℝ × ℝ × ℝ × ℝ × ℝ × ℝ) :=
  match (max_dist_search segs).2 with
  | none => none
  | some ij =>
      some (((segs.getD ij.1 zero_rect).cx + (segs.getD ij.2 zero_rect).cx) / 2,
        ((segs.getD ij.1 zero_rect).cy + (segs.getD ij.2 zero_rect).cy) / 2,
        (max_dist_search segs).1 +
          ((segs.getD ij.1 zero_rect).w + (segs.getD ij.2 zero_rect).w) / 2,
        mean (segs.map Rect.h),
        bar_theta segs,
        line_b segs)

end

/-! ### Farthest-pair fold lemmas -/

theorem search_foldl_ge {α : Type} (g : α → ℝ) (l : List α) :
    ∀ init : ℝ × Option α,
      init.1 ≤ (l.foldl (search_step g) init).1 ∧
      ∀ x ∈ l, g x ≤ (l.foldl (search_step g) init).1 := by
  induction l with
  | nil =>
    intro init
    exact ⟨le_refl _, fun x hx => absurd hx (List.not_mem_nil x)⟩
  | cons a t ih =>
    intro init
    rw [List.foldl_cons]
    have hstep : init.1 ≤ (search_step g init a).1 ∧ g a ≤ (search_step g init a).1 := by
      unfold search_step
      split_ifs with hlt
      · exact ⟨le_of_lt hlt, le_refl _⟩
      · exact ⟨le_refl _, le_of_not_lt hlt⟩
    refine ⟨le_trans hstep.1 (ih (search_step g init a)).1, ?_⟩
    intro x hx
    rcases List.mem_cons.mp hx with h | hxt
    · rw [h]
      exact le_trans hstep.2 (ih (search_step g init a)).1
    · exact (ih (search_step g init a)).2 x hxt

theorem search_foldl_state {α : Type} (g : α → ℝ) (l : List α) :
    ∀ init : ℝ × Option α,
      l.foldl (search_step g) init = init ∨
      ∃ x ∈ l, l.foldl (search_step g) init = (g x, some x) := by
  induction l with
  | nil => intro init; left; rfl
  | cons a t ih =>
    intro init
    rw [List.foldl_cons]
    rcases ih (search_step g init a) with h | ⟨x, hx, hres⟩
    · rw [h]
      unfold search_step
      split_ifs
      · right; exact ⟨a, List.mem_cons_self a t, rfl⟩
      · left; rfl
    · right
      exact ⟨x, List.mem_cons_of_mem a hx, hres⟩

theorem mem_allPairs (n : ℕ) (p : ℕ × ℕ) :
    p ∈ allPairs n ↔ p.1 < p.2 ∧ p.2 < n := by
  unfold allPairs
  rw [List.mem_flatMap]
  constructor
  · rintro ⟨i, hi, hp⟩
    obtain ⟨j, hj, rfl⟩ := List.mem_map.mp hp
    have := List.mem_filter.mp hj
    refine ⟨by simpa using this.2, List.mem_range.mp this.1⟩
  · rintro ⟨h1, h2⟩
    refine ⟨p.1, List.mem_range.mpr (by omega), List.mem_map.mpr ⟨p.2, ?_, rfl⟩⟩
    exact List.mem_filter.mpr ⟨List.mem_range.mpr h2, by simpa using h1⟩

/-- C1: on a single-segment group the all-pairs loop finds no pair, the
search state keeps its `(0, -1, -1)` initialization, and `combine_segs`
aborts (the `assert idx1 >= 0 and idx2 >= 0` fails) instead of returning the
segment's own box. -/
theorem combine_segs_singleton_aborts (s : Rect) :
    max_dist_search [s] = (0, none) ∧ combine_segs [s] = none := by
  have hpairs : allPairs ([s].length) = [] := rfl
  have hsearch : max_dist_search [s] = (0, none) := by
    unfold max_dist_search
    rw [hpairs]
    rfl
  refine ⟨hsearch, ?_⟩
  unfold combine_segs
  rw [hsearch]

/-! ### Concrete two-segment synthesis -/

/-- The two-segment group of the spec's synthesis test:
`(0,0,10,10,0)` and `(20,0,10,10,0)`. -/
def segs_pair : List Rect := [⟨0, 0, 10, 10, 0⟩, ⟨20, 0, 10, 10, 0⟩]

theorem bar_theta_pair : bar_theta segs_pair = 0 := by
  unfold bar_theta segs_pair mean
  simp

theorem line_k_pair : line_k segs_pair = 0 := by
  unfold line_k tan
  rw [bar_theta_pair]
  simp

theorem line_b_pair : line_b segs_pair = 0 := by
  unfold line_b mean
  simp only [line_k_pair]
  simp [segs_pair]

theorem proj_pair_zero : proj segs_pair 0 = 0 := by
  unfold proj
  rw [line_k_pair, line_b_pair]
  simp [segs_pair]

theorem proj_pair_one : proj segs_pair 1 = 20 := by
  unfold proj
  rw [line_k_pair, line_b_pair]
  have h1 : (1 : ℝ) + 0 ^ 2 = 1 := by norm_num
  rw [h1, Real.sqrt_one]
  simp [segs_pair]

theorem proj_point_pair_zero : proj_point segs_pair 0 = (0, 0) := by
  unfold proj_point
  rw [proj_pair_zero]
  simp

theorem proj_point_pair_one : proj_point segs_pair 1 = (20, 0) := by
  unfold proj_point cos sin
  rw [proj_pair_one, bar_theta_pair]
  simp

theorem pair_dist_pair : pair_dist segs_pair 0 1 = 20 := by
  unfold pair_dist
  rw [proj_point_pair_zero, proj_point_pair_one]
  dsimp only
  have h4 : ((0 : ℝ) - 20) ^ 2 + ((0 : ℝ) - 0) ^ 2 = 20 ^ 2 := by norm_num
  rw [h4, Real.sqrt_sq (by norm_num : (0 : ℝ) ≤ 20)]

theorem max_dist_search_pair : max_dist_search segs_pair = (20, some (0, 1)) := by
  have hpairs : allPairs segs_pair.length = [(0, 1)] := rfl
  unfold max_dist_search
  rw [hpairs]
  simp only [List.foldl_cons, List.foldl_nil]
  unfold search_step
  dsimp only
  rw [pair_dist_pair, if_pos (by norm_num : (0 : ℝ) < 20)]

theorem combine_segs_pair_eval : combine_segs segs_pair = some (10, 0, 30, 10, 0, 0) := by
  unfold combine_segs
  rw [max_dist_search_pair]
  dsimp only
  rw [bar_theta_pair, line_b_pair]
  norm_num [segs_pair, mean]

/-- C2 counterexample: for the two segments `(0,0,10,10,0)`, `(20,0,10,10,0)`
the synthesized width is `30 = 20 + (10+10)/2`, not the claimed `20`. -/
theorem two_segment_width_is_thirty :
    (combine_segs segs_pair).map (fun t => t.2.2.1) = some 30 ∧ (30 : ℝ) ≠ 20 := by
  rw [combine_segs_pair_eval]
  exact ⟨rfl, by norm_num⟩

/-- C2 amended: the synthesized box for the two segments is
`cx=10, cy=0, w=30, h=10, theta=0` (and intercept `b=0`): the width is the
maximum projected distance `20` plus half the sum of the two widths. -/
theorem two_segment_synthesis : combine_segs segs_pair = some (10, 0, 30, 10, 0, 0) :=
  combine_segs_pair_eval

/-- C7: for a group whose projected centers are not all coincident, the
farthest pair `(i, j)` the search selects maximizes the projected distance,
and the synthesized box is the midpoint of those two original centers, the
maximum distance plus half the sum of their widths, the mean height, the mean
theta, and the fitted intercept `b = mean(cy - tan(bar_theta) * cx)`. -/
theorem combine_segs_general (segs : List Rect)
    (hex : ∃ i j : ℕ, i < j ∧ j < segs.length ∧ proj_point segs i ≠ proj_point segs j) :
    ∃ i j : ℕ, i < j ∧ j < segs.length ∧
      (∀ p ∈ allPairs segs.length, pair_dist segs p.1 p.2 ≤ pair_dist segs i j) ∧
      bar_theta segs = mean (segs.map Rect.theta) ∧
      line_b segs =
        mean (segs.map (fun s => s.cy - tan (mean (segs.map Rect.theta)) * s.cx)) ∧
      combine_segs segs =
        some (((segs.getD i zero_rect).cx + (segs.getD j zero_rect).cx) / 2,
          ((segs.getD i zero_rect).cy + (segs.getD j zero_rect).cy) / 2,
          pair_dist segs i j + ((segs.getD i zero_rect).w + (segs.getD j zero_rect).w) / 2,
          mean (segs.map Rect.h), bar_theta segs, line_b segs) := by
  obtain ⟨i0, j0, hij, hjn, hne⟩ := hex
  have hpos : 0 < pair_dist segs i0 j0 := by
    unfold pair_dist
    apply Real.sqrt_pos.mpr
    have hcases : (proj_point segs i0).1 ≠ (proj_point segs j0).1 ∨
        (proj_point segs i0).2 ≠ (proj_point segs j0).2 := by
      by_contra hno
      push_neg at hno
      exact hne (Prod.ext hno.1 hno.2)
    rcases hcases with h | h
    · have h1 : 0 < ((proj_point segs i0).1 - (proj_point segs j0).1) ^ 2 :=
        lt_of_le_of_ne (sq_nonneg _) (Ne.symm (pow_ne_zero 2 (sub_ne_zero.mpr h)))
      have h2 := sq_nonneg ((proj_point segs i0).2 - (proj_point segs j0).2)
      linarith
    · have h1 : 0 < ((proj_point segs i0).2 - (proj_point segs j0).2) ^ 2 :=
        lt_of_le_of_ne (sq_nonneg _) (Ne.symm (pow_ne_zero 2 (sub_ne_zero.mpr h)))
      have h2 := sq_nonneg ((proj_point segs i0).1 - (proj_point segs j0).1)
      linarith
  have hmem : (i0, j0) ∈ allPairs segs.length := (mem_allPairs _ _).mpr ⟨hij, hjn⟩
  have hge := search_foldl_ge (fun ij : ℕ × ℕ => pair_dist segs ij.1 ij.2)
    (allPairs segs.length) (0, none)
  rcases search_foldl_state (fun ij : ℕ × ℕ => pair_dist segs ij.1 ij.2)
      (allPairs segs.length) (0, none) with h0 | ⟨p, hp, hres⟩
  · exfalso
    have hle := hge.2 (i0, j0) hmem
    rw [h0] at hle
    dsimp only at hle
    linarith
  · have hres' : max_dist_search segs = (pair_dist segs p.1 p.2, some p) := hres
    refine ⟨p.1, p.2, ((mem_allPairs _ _).mp hp).1, ((mem_allPairs _ _).mp hp).2,
      ?_, rfl, rfl, ?_⟩
    · intro q hq
      have hle := hge.2 q hq
      rw [hres] at hle
      dsimp only at hle
      exact hle
    · unfold combine_segs
      rw [hres']

/-- Witness for C7 at the concrete two-segment group: the projected centers
`(0,0)` and `(20,0)` differ, and the general synthesis formula applies. -/
theorem combine_segs_general_witness :
    ((0 : ℕ) < 1 ∧ 1 < segs_pair.length ∧
      proj_point segs_pair 0 ≠ proj_point segs_pair 1) ∧
    (∃ i j : ℕ, i < j ∧ j < segs_pair.length ∧
      (∀ p ∈ allPairs segs_pair.length,
        pair_dist segs_pair p.1 p.2 ≤ pair_dist segs_pair i j) ∧
      bar_theta segs_pair = mean (segs_pair.map Rect.theta) ∧
      line_b segs_pair =
        mean (segs_pair.map (fun s => s.cy - tan (mean (segs_pair.map Rect.theta)) * s.cx)) ∧
      combine_segs segs_pair =
        some (((segs_pair.getD i zero_rect).cx + (segs_pair.getD j zero_rect).cx) / 2,
          ((segs_pair.getD i zero_rect).cy + (segs_pair.getD j zero_rect).cy) / 2,
          pair_dist segs_pair i j +
            ((segs_pair.getD i zero_rect).w + (segs_pair.getD j zero_rect).w) / 2,
          mean (segs_pair.map Rect.h), bar_theta segs_pair, line_b segs_pair)) := by
  have hne : proj_point segs_pair 0 ≠ proj_point segs_pair 1 := by
    rw [proj_point_pair_zero, proj_point_pair_one]
    intro hcontra
    have hfst := congrArg Prod.fst hcontra
    norm_num at hfst
  exact ⟨⟨by norm_num, by norm_num [segs_pair], hne⟩,
    combine_segs_general segs_pair ⟨0, 1, by norm_num, by norm_num [segs_pair], hne⟩⟩

end seglink
